import Mathlib

/-!
Verification of the search core of the dictionary application.

Strings from the TypeScript sources are modelled as `List Char`; JavaScript
objects used as string-keyed maps are modelled as insertion-ordered
association lists, matching JS property-insertion iteration order for the
non-numeric keys used here.  Each definition below is a shallow embedding of
the correspondingly named function of the repository:

* `levMatFun` / `levenshteinDistance` — `TrieService.levenshteinDistance`
  (`src/src/services/trieService.ts`): the dynamic-programming table is
  filled row by row; `levMatFun a b i` is row `i` of the matrix and
  `levMatFun a b i j` is the cell `matrix[i][j]`.
* `insertWord`, `initializeTrie`, `trieSearch`, `fuzzySearch` —
  `TrieService.insert` / `initialize` / `search` / `fuzzySearch`.
* `calculateRelevanceScore` — `SearchScreen.tsx`, `calculateMatchScore` —
  `SearchService.calculateMatchScore` (`searchService.ts`).
* `handleSearchMerge` — the merge/dedup/rank part of
  `SearchScreen.handleSearch`.
* `cacheSet` / `cacheGetValue` — `CacheService.set` / `get`
  (`cacheService.ts`), with the external `AsyncStorage` tier abstracted as a
  lookup function.
* `addToSearchHistory` — `SearchService.addToSearchHistory`.
* `getAutocompleteSuggestions` (filter-based, `searchService.ts`) and
  `autocompleteSuggestionsTrie` (trie-based variant of the search service).
-/

/-- JS `s.toLowerCase()` on a string modelled as a character list
(`Char.toLower` handles the basic-latin range, as the indexed data does). -/
def toLowerStr (s : List Char) : List Char := s.map Char.toLower

/-- JS `s.trim()`: drop whitespace from both ends. -/
def trimStr (s : List Char) : List Char :=
  ((s.dropWhile Char.isWhitespace).reverse.dropWhile Char.isWhitespace).reverse

/-- `SearchService.normalizeText`: `text.toLowerCase().trim()`. -/
def normalizeText (text : List Char) : List Char := trimStr (toLowerStr text)

/-- One sense of a word (`Meaning` in `src/types/dictionary.ts`). -/
structure Meaning where
  partOfSpeech : List Char
  definitions : List (List Char)
  examples : List (List Char)
deriving DecidableEq

/-- Canonical dictionary entry (`DictionaryEntry` in `src/types/dictionary.ts`). -/
structure DictionaryEntry where
  word : List Char
  phonetic : List Char
  meanings : List Meaning
  translation : List Char
deriving DecidableEq

/-- Row `i+1` of the Levenshtein DP matrix of `TrieService.levenshteinDistance`,
given row `i` as `prev`: cell `(i+1, 0) = i+1` and cell `(i+1, j+1)` is
`prev j` when `a[i] = b[j]`, otherwise
`min (diagonal+1) (min (left+1) (up+1))` exactly as in the source
(`Math.min(matrix[i-1][j-1]+1, matrix[i][j-1]+1, matrix[i-1][j]+1)`). -/
def levMatRow (a b : List Char) (prev : Nat → Nat) (i : Nat) : Nat → Nat
  | 0 => i + 1
  | j + 1 =>
    if a.getD i ' ' = b.getD j ' ' then prev j
    else min (min (prev j + 1) (levMatRow a b prev i j + 1)) (prev (j + 1) + 1)

/-- Row `i` of the DP matrix: row `0` is `matrix[0][j] = j`, and each further
row is produced by `levMatRow` from the previous one, mirroring the two
nested loops of the source. -/
def levMatFun (a b : List Char) : Nat → Nat → Nat
  | 0 => fun j => j
  | i + 1 => levMatRow a b (levMatFun a b i) i

/-- `TrieService.levenshteinDistance(a, b)`: the bottom-right cell
`matrix[a.length][b.length]` of the DP table. -/
def levenshteinDistance (a b : List Char) : Nat :=
  levMatFun a b a.length b.length

/-- Textbook recursive Levenshtein distance, used as a bridge between the DP
table and the minimal-edit-script characterisation.  It consumes the strings
from the front, so it corresponds to the DP table read over reversed
prefixes. -/
def lev : List Char → List Char → Nat
  | [], b => b.length
  | a, [] => a.length
  | x :: a, y :: b =>
    if x = y then lev a b
    else 1 + min (min (lev a b) (lev (x :: a) b)) (lev a (y :: b))

/-- One single-character edit at an arbitrary position: deletion, insertion
or substitution, each of unit cost (the edit operations named by the spec's
definition of Levenshtein distance). -/
def EditStep (u v : List Char) : Prop :=
  (∃ p s x, u = p ++ x :: s ∧ v = p ++ s) ∨
  (∃ p s x, u = p ++ s ∧ v = p ++ x :: s) ∨
  (∃ p s x y, u = p ++ x :: s ∧ v = p ++ y :: s)

/-- `Edits n u v`: `u` can be transformed into `v` by a sequence of exactly
`n` single-character edits. -/
inductive Edits : Nat → List Char → List Char → Prop
  | refl (u : List Char) : Edits 0 u u
  | step {u v w : List Char} {n : Nat} :
      EditStep u v → Edits n v w → Edits (n + 1) u w

/-- Trie node (`TrieNode` in `trieService.ts`): children as an
insertion-ordered association list from characters to subtrees, an
end-of-word flag, and per-dictionary-id entry lists. -/
inductive TrieNode where
  | mk (children : List (Char × TrieNode)) (isEndOfWord : Bool)
      (entries : List (List Char × List DictionaryEntry))

def TrieNode.children : TrieNode → List (Char × TrieNode)
  | .mk cs _ _ => cs

def TrieNode.isEndOfWord : TrieNode → Bool
  | .mk _ b _ => b

def TrieNode.entriesMap : TrieNode → List (List Char × List DictionaryEntry)
  | .mk _ _ ents => ents

/-- `TrieService.createNode()`. -/
def createNode : TrieNode := .mk [] false []

/-- JS object property read `obj[k]` on an association list. -/
def alookup {κ β : Type} [DecidableEq κ] (k : κ) : List (κ × β) → Option β
  | [] => none
  | (k', v) :: rest => if k' = k then some v else alookup k rest

/-- JS object property write `obj[k] = v`: replace in place if the key is
present, otherwise append the new key at the end (insertion order). -/
def replaceChild (c : Char) (n : TrieNode) :
    List (Char × TrieNode) → List (Char × TrieNode)
  | [] => [(c, n)]
  | (c', m) :: rest =>
    if c' = c then (c', n) :: rest else (c', m) :: replaceChild c n rest

/-- The tail of `TrieService.insert`: ensure `entries[dictionaryId]` exists
and push the entry unless it is already present (`includes` check). -/
def addEntry (did : List Char) (e : DictionaryEntry) :
    List (List Char × List DictionaryEntry) →
    List (List Char × List DictionaryEntry)
  | [] => [(did, [e])]
  | (d, es) :: rest =>
    if d = did then (d, if e ∈ es then es else es ++ [e]) :: rest
    else (d, es) :: addEntry did e rest

/-- `TrieService.insert(word, entry)` for dictionary id `did`: walk the
word's character path (creating missing children), then mark the final node
as end-of-word and record the entry there. -/
def insertWord (did : List Char) (e : DictionaryEntry) :
    List Char → TrieNode → TrieNode
  | [], .mk cs _ ents => .mk cs true (addEntry did e ents)
  | c :: w, .mk cs b ents =>
    .mk (replaceChild c (insertWord did e w ((alookup c cs).getD createNode)) cs)
      b ents

/-- The definition tokens indexed by `TrieService.initialize`: every
definition string lowercased and split on whitespace.  JS
`split(/\s+/)` collapses whitespace runs; `List.splitOnP` instead emits
empty tokens for runs, but those are discarded by the `length > 2` filter
at the insertion site, so the indexed tokens coincide. -/
def defTokens (e : DictionaryEntry) : List (List Char) :=
  e.meanings.flatMap fun m =>
    m.definitions.flatMap fun d => List.splitOnP Char.isWhitespace (toLowerStr d)

/-- One iteration of the `initialize` loop: insert the entry under its
lowercased word, then under every definition token longer than 2 characters. -/
def insertEntry (did : List Char) (t : TrieNode) (e : DictionaryEntry) : TrieNode :=
  (defTokens e).foldl
    (fun acc w => if w.length > 2 then insertWord did e w acc else acc)
    (insertWord did e (toLowerStr e.word) t)

/-- `TrieService.initialize(dictionary, dictionaryId)` starting from trie `t`
(the service's current root). -/
def initializeTrie (dict : List DictionaryEntry) (did : List Char)
    (t : TrieNode) : TrieNode :=
  dict.foldl (insertEntry did) t

/-- The prefix walk of `TrieService.search`: follow the characters, failing
on a missing child. -/
def findNode : List Char → TrieNode → Option TrieNode
  | [], t => some t
  | c :: p, t =>
    match alookup c t.children with
    | none => none
    | some child => findNode p child

mutual
/-- `TrieService.collectAllEntries(node, dictionaryId)`: this node's entries
for the dictionary id followed by the collections of all children in order. -/
def collectAllEntries (did : List Char) : TrieNode → List DictionaryEntry
  | .mk cs _ ents => (alookup did ents).getD [] ++ collectChildren did cs
def collectChildren (did : List Char) :
    List (Char × TrieNode) → List DictionaryEntry
  | [] => []
  | (_, t) :: rest => collectAllEntries did t ++ collectChildren did rest
end

/-- `TrieService.search(prefix, dictionaryId)` on trie `t`. -/
def trieSearch (p did : List Char) (t : TrieNode) : List DictionaryEntry :=
  match findNode (toLowerStr p) t with
  | none => []
  | some n => collectAllEntries did n

mutual
/-- The recursive walker of `TrieService.fuzzySearch` (`searchNode`): abort
when the remaining budget is negative, include the node's entries when it
ends a word within `maxD` of the query, and recurse into every child with
the budget passed through unchanged, as in the source. -/
def fuzzyGo (did q : List Char) (maxD : Int) :
    TrieNode → List Char → Int → List DictionaryEntry
  | .mk cs isEnd ents, cur, rem =>
    if rem < 0 then []
    else
      (if isEnd = true ∧ (levenshteinDistance cur q : Int) ≤ maxD then
        (alookup did ents).getD []
      else []) ++ fuzzyKids did q maxD cs cur rem
def fuzzyKids (did q : List Char) (maxD : Int) :
    List (Char × TrieNode) → List Char → Int → List DictionaryEntry
  | [], _, _ => []
  | (c, t) :: rest, cur, rem =>
    fuzzyGo did q maxD t (cur ++ [c]) rem ++ fuzzyKids did q maxD rest cur rem
end

/-- `TrieService.fuzzySearch(query, dictionaryId, maxDistance)` on trie `t`. -/
def fuzzySearch (q did : List Char) (maxD : Int) (t : TrieNode) :
    List DictionaryEntry :=
  fuzzyGo did (toLowerStr q) maxD t [] maxD

mutual
/-- Reference fuzzy collector, written from the spec's description: walk the
whole trie unpruned and concatenate, over all end-of-word nodes in traversal
order, the source's entries of exactly those nodes whose accumulated path
string is within Levenshtein distance `maxD` of the (already lowercased)
query. -/
def fuzzyRefGo (did q : List Char) (maxD : Int) :
    TrieNode → List Char → List DictionaryEntry
  | .mk cs isEnd ents, cur =>
    (if isEnd = true ∧ (levenshteinDistance cur q : Int) ≤ maxD then
      (alookup did ents).getD []
    else []) ++ fuzzyRefKids did q maxD cs cur
def fuzzyRefKids (did q : List Char) (maxD : Int) :
    List (Char × TrieNode) → List Char → List DictionaryEntry
  | [], _ => []
  | (c, t) :: rest, cur =>
    fuzzyRefGo did q maxD t (cur ++ [c]) ++ fuzzyRefKids did q maxD rest cur
end

/-- Spec-side fuzzy search: the unpruned reference traversal applied to the
lowercased query. -/
def fuzzySearchRef (q did : List Char) (maxD : Int) (t : TrieNode) :
    List DictionaryEntry :=
  fuzzyRefGo did (toLowerStr q) maxD t []

/-- The auxiliary node-at-path function: like `findNode` but totalised with
fresh empty nodes, matching what `insert` sees while walking. -/
def nodeAtD : List Char → TrieNode → TrieNode
  | [], t => t
  | c :: p, t => nodeAtD p ((alookup c t.children).getD createNode)

/-- Entries stored at a node for one dictionary id. -/
def entriesFor (did : List Char) (t : TrieNode) : List DictionaryEntry :=
  (alookup did t.entriesMap).getD []

/-- Per-meaning additions of `SearchScreen.calculateRelevanceScore`: +100 for
every definition containing the query, +50 for every example containing it
(case-insensitive, no trimming at this call site). -/
def meaningScoreR (query : List Char) (m : Meaning) : Nat :=
  100 * (m.definitions.countP fun d => decide (query <:+: toLowerStr d)) +
  50 * (m.examples.countP fun ex => decide (query <:+: toLowerStr ex))

/-- The word-level tier of `SearchScreen.calculateRelevanceScore`: the
`if / else if / else if` chain awarding 1000 / 500 / 250 exactly once. -/
def wordScoreR (entry : DictionaryEntry) (query : List Char) : Nat :=
  if toLowerStr entry.word = query then 1000
  else if query <+: toLowerStr entry.word then 500
  else if query <:+: toLowerStr entry.word then 250
  else 0

/-- Definition/example/translation additions of
`SearchScreen.calculateRelevanceScore` (+150 for a non-empty translation
containing the query — JS truthiness of the empty string). -/
def bonusScoreR (entry : DictionaryEntry) (query : List Char) : Nat :=
  (entry.meanings.map (meaningScoreR query)).sum +
  (if entry.translation ≠ [] ∧ query <:+: toLowerStr entry.translation then 150
  else 0)

/-- `SearchScreen.calculateRelevanceScore(entry, searchQuery)`: the score
accumulator starts at 0, adds exactly one word tier, then the additive
bonuses. -/
def calculateRelevanceScore (entry : DictionaryEntry)
    (searchQuery : List Char) : Nat :=
  wordScoreR entry (toLowerStr searchQuery) +
    bonusScoreR entry (toLowerStr searchQuery)

/-- Per-meaning additions of `SearchService.calculateMatchScore`
(`searchService.ts`): +20 per matching definition, +10 per matching example,
all fields normalized with `normalizeText`. -/
def meaningScoreM (query : List Char) (m : Meaning) : Nat :=
  20 * (m.definitions.countP fun d => decide (query <:+: normalizeText d)) +
  10 * (m.examples.countP fun ex => decide (query <:+: normalizeText ex))

/-- Word-level tier of `SearchService.calculateMatchScore`: 100 / 80 / 60. -/
def wordScoreM (entry : DictionaryEntry) (query : List Char) : Nat :=
  if normalizeText entry.word = query then 100
  else if query <+: normalizeText entry.word then 80
  else if query <:+: normalizeText entry.word then 60
  else 0

/-- Definition/example/translation additions of
`SearchService.calculateMatchScore` (+5 for a non-empty translation
containing the query). -/
def bonusScoreM (entry : DictionaryEntry) (query : List Char) : Nat :=
  (entry.meanings.map (meaningScoreM query)).sum +
  (if entry.translation ≠ [] ∧ query <:+: normalizeText entry.translation then 5
  else 0)

/-- `SearchService.calculateMatchScore(entry, query)`. -/
def calculateMatchScore (entry : DictionaryEntry) (query : List Char) : Nat :=
  wordScoreM entry (normalizeText query) + bonusScoreM entry (normalizeText query)

/-- Tag every entry of one source's result list with the source id
(`tagSource` in `SearchScreen.handleSearch`). -/
def tagAll (src : List Char) (l : List DictionaryEntry) :
    List (List Char × DictionaryEntry) :=
  l.map fun e => (src, e)

/-- `results.find(e => e.word.toLowerCase() === lowerQuery)` for one source. -/
def findExact (lq : List Char) (l : List DictionaryEntry) :
    Option DictionaryEntry :=
  l.find? fun e => decide (toLowerStr e.word = lq)

/-- The `exactMatches` array of `SearchScreen.handleSearch`: at most one
exact match per source, pushed in the fixed order GPT, Voicetube, Yahoo,
Cambridge, each tagged with its source id. -/
def exactMatches (gpt vt yh cb : List DictionaryEntry) (lq : List Char) :
    List (List Char × DictionaryEntry) :=
  ((findExact lq gpt).map fun e => ("GPT".toList, e)).toList ++
  ((findExact lq vt).map fun e => ("Voicetube".toList, e)).toList ++
  ((findExact lq yh).map fun e => ("Yahoo".toList, e)).toList ++
  ((findExact lq cb).map fun e => ("Cambridge".toList, e)).toList

/-- The `allResults` array: every source's full result list tagged. -/
def allTagged (gpt vt yh cb : List DictionaryEntry) :
    List (List Char × DictionaryEntry) :=
  tagAll "GPT".toList gpt ++ tagAll "Voicetube".toList vt ++
  tagAll "Yahoo".toList yh ++ tagAll "Cambridge".toList cb

/-- The `shownKeys` set: the `(source, lowercased word)` key of every
promoted exact match (the JS string key `src::word` is modelled as a pair). -/
def shownKeys (ex : List (List Char × DictionaryEntry)) :
    List (List Char × List Char) :=
  ex.map fun p => (p.1, toLowerStr p.2.word)

/-- Insert into a list sorted descending by `score`, keeping earlier
elements first on ties. -/
def insertDesc {α : Type} (score : α → Nat) (x : α) : List α → List α
  | [] => [x]
  | y :: ys => if score y < score x then x :: y :: ys else y :: insertDesc score x ys

/-- Stable sort descending by `score`, the extensional behaviour of the JS
`sort((a, b) => b.score - a.score)` call (JS `Array.prototype.sort` is
stable). -/
def sortDescBy {α : Type} (score : α → Nat) : List α → List α
  | [] => []
  | x :: xs => insertDesc score x (sortDescBy score xs)

/-- The merge/dedup/rank part of `SearchScreen.handleSearch`: promote one
exact match per source, remove every tagged entry whose
`(source, lowercased word)` key was promoted, sort the remainder by
relevance, and return exact matches first. -/
def handleSearchMerge (gpt vt yh cb : List DictionaryEntry)
    (text : List Char) : List (List Char × DictionaryEntry) :=
  exactMatches gpt vt yh cb (toLowerStr text) ++
    sortDescBy (fun p => calculateRelevanceScore p.2 text)
      ((allTagged gpt vt yh cb).filter fun p =>
        decide ((p.1, toLowerStr p.2.word) ∉
          shownKeys (exactMatches gpt vt yh cb (toLowerStr text))))

/-- Spec-side observation: the entries of a tagged list whose lowercased
word equals the lowercased query. -/
def exactIn (text : List Char) (l : List (List Char × DictionaryEntry)) :
    List (List Char × DictionaryEntry) :=
  l.filter fun p => decide (toLowerStr p.2.word = toLowerStr text)

/-- Spec-side observation: the complementary sublist of `exactIn`. -/
def nonExactIn (text : List Char) (l : List (List Char × DictionaryEntry)) :
    List (List Char × DictionaryEntry) :=
  l.filter fun p => !(decide (toLowerStr p.2.word = toLowerStr text))

/-- Whether a source's result list contains an exact match for the query. -/
def hasExact (lq : List Char) (l : List DictionaryEntry) : Bool :=
  l.any fun e => decide (toLowerStr e.word = lq)

/-- The number of sources whose result list contains an exact match. -/
def numExactSources (gpt vt yh cb : List DictionaryEntry) (lq : List Char) :
    Nat :=
  (if hasExact lq gpt then 1 else 0) + (if hasExact lq vt then 1 else 0) +
  (if hasExact lq yh then 1 else 0) + (if hasExact lq cb then 1 else 0)

/-- `fallbackStorage` of the cache configuration. -/
inductive FallbackStorage where
  | memory
  | disk
  | both
deriving DecidableEq

/-- `CacheEntry<T>` of `cacheService.ts`, with the stored value modelled as
its serialized string. -/
structure CacheEntryM where
  data : List Char
  timestamp : Int
  size : Nat
  lastAccessed : Int
deriving DecidableEq

/-- `CacheConfig` of `cacheService.ts` (`key` is only a storage namespace
label and is omitted; `maxSize` is never consulted by the implementation but
kept for shape fidelity). -/
structure CacheConfigM where
  ttl : Int
  maxSize : Nat
  maxTotalSize : Int
  fallbackStorage : FallbackStorage
deriving DecidableEq

/-- The mutable state of `CacheService`: the fast in-memory map, the
in-process disk mirror, and the tracked total size. -/
structure CacheStateM where
  memoryCache : List (String × CacheEntryM)
  diskCache : List (String × CacheEntryM)
  totalSize : Int
deriving DecidableEq

/-- JS `Map.set`: replace in place when the key exists, else append. -/
def aset {β : Type} (k : String) (v : β) :
    List (String × β) → List (String × β)
  | [] => [(k, v)]
  | (k', v') :: rest =>
    if k' = k then (k', v) :: rest else (k', v') :: aset k v rest

/-- JS `Map.delete`: remove the entry with the given key. -/
def aerase {β : Type} (k : String) :
    List (String × β) → List (String × β)
  | [] => []
  | (k', v') :: rest => if k' = k then rest else (k', v') :: aerase k rest

/-- Insert into a list sorted ascending by `lastAccessed`, keeping earlier
elements first on ties. -/
def insertByAccess (x : String × CacheEntryM) :
    List (String × CacheEntryM) → List (String × CacheEntryM)
  | [] => [x]
  | y :: ys =>
    if x.2.lastAccessed < y.2.lastAccessed then x :: y :: ys
    else y :: insertByAccess x ys

/-- Stable sort of the cache entries by `lastAccessed`, oldest first — the
extensional behaviour of `sort(([, a], [, b]) => a.lastAccessed - b.lastAccessed)`
in `cleanupCache`. -/
def sortByAccess : List (String × CacheEntryM) → List (String × CacheEntryM)
  | [] => []
  | x :: xs => insertByAccess x (sortByAccess xs)

/-- `CacheService.evictEntry(key)`: drop the entry from the fast tier,
subtract its size, and mirror it to the disk tier when fallback storage
allows (the external `AsyncStorage` write cannot fail the operation). -/
def evictEntry (cfg : CacheConfigM) (st : CacheStateM) (key : String) :
    CacheStateM :=
  match alookup key st.memoryCache with
  | none => st
  | some e =>
    { memoryCache := aerase key st.memoryCache
      diskCache :=
        if cfg.fallbackStorage = .disk ∨ cfg.fallbackStorage = .both then
          aset key e st.diskCache
        else st.diskCache
      totalSize := st.totalSize - e.size }

/-- The `while` loop of `CacheService.cleanupCache` over the snapshot of
keys sorted by last access: evict while the tracked total still exceeds the
configured maximum and keys remain. -/
def cleanupGo (cfg : CacheConfigM) : List String → CacheStateM → CacheStateM
  | [], st => st
  | k :: ks, st =>
    if st.totalSize > cfg.maxTotalSize then cleanupGo cfg ks (evictEntry cfg st k)
    else st

/-- `CacheService.cleanupCache()`. -/
def cleanupCache (cfg : CacheConfigM) (st : CacheStateM) : CacheStateM :=
  cleanupGo cfg ((sortByAccess st.memoryCache).map Prod.fst) st

/-- `CacheService.set(key, data)` at time `now`: `calcSize` models
`JSON.stringify(data).length` on the serialized value; when the projected
total would exceed the maximum, `cleanupCache` runs first; then the entry is
stored and its size added (the external `AsyncStorage` mirror write is not
part of the tracked state). -/
def cacheSet (cfg : CacheConfigM) (calcSize : List Char → Nat)
    (st : CacheStateM) (key : String) (data : List Char) (now : Int) :
    CacheStateM :=
  { memoryCache :=
      aset key ⟨data, now, calcSize data, now⟩
        (if st.totalSize + calcSize data > cfg.maxTotalSize then
          cleanupCache cfg st
        else st).memoryCache
    diskCache :=
      (if st.totalSize + calcSize data > cfg.maxTotalSize then cleanupCache cfg st
      else st).diskCache
    totalSize :=
      (if st.totalSize + calcSize data > cfg.maxTotalSize then cleanupCache cfg st
      else st).totalSize + calcSize data }

/-- The disk half of `CacheService.get`: `diskCache.get(key) || getFromDisk(key)`
with the external persistent store abstracted as `storage`, returning the
data only when present and unexpired. -/
def cacheGetDisk (cfg : CacheConfigM) (st : CacheStateM)
    (storage : String → Option CacheEntryM) (key : String) (now : Int) :
    Option (List Char) :=
  if cfg.fallbackStorage = .disk ∨ cfg.fallbackStorage = .both then
    match (alookup key st.diskCache).orElse (fun _ => storage key) with
    | some e => if now - e.timestamp > cfg.ttl then none else some e.data
    | none => none
  else none

/-- The value returned by `CacheService.get(key)` at time `now`: the fast
tier wins when present and unexpired (`isExpired`: `now - timestamp > ttl`),
otherwise the disk tier is consulted; a miss everywhere is `none` (the
`lastAccessed` touch and memory repopulation do not affect the returned
value). -/
def cacheGetValue (cfg : CacheConfigM) (st : CacheStateM)
    (storage : String → Option CacheEntryM) (key : String) (now : Int) :
    Option (List Char) :=
  match alookup key st.memoryCache with
  | some e =>
    if now - e.timestamp > cfg.ttl then cacheGetDisk cfg st storage key now
    else some e.data
  | none => cacheGetDisk cfg st storage key now

/-- Sum of the tracked sizes of the fast tier's entries. -/
def sumSizes (l : List (String × CacheEntryM)) : Int :=
  (l.map fun p => (p.2.size : Int)).sum

/-- `SearchService.addToSearchHistory` (`MAX_HISTORY_ITEMS = 20`): prepend
the query, drop previous occurrences, truncate to the cap. -/
def addToSearchHistory (query : String) (history : List String) :
    List String :=
  (query :: history.filter fun item => decide (item ≠ query)).take 20

/-- `SearchService.getAutocompleteSuggestions` of `searchService.ts`: filter
the loaded dictionary to entries whose normalized word starts with the
normalized query, first 5. -/
def getAutocompleteSuggestions (dict : List DictionaryEntry)
    (query : List Char) : List DictionaryEntry :=
  if normalizeText query = [] then []
  else
    (dict.filter fun e =>
      decide (normalizeText query <+: normalizeText e.word)).take 5

/-- The trie-backed `getAutocompleteSuggestions` variant of the search
service: trie prefix search on the normalized query, first 5 (cache miss
path; the trie is the one built by `initialize` over the loaded
dictionary). -/
def autocompleteSuggestionsTrie (dict : List DictionaryEntry)
    (did query : List Char) : List DictionaryEntry :=
  if normalizeText query = [] then []
  else (trieSearch (normalizeText query) did
    (initializeTrie dict did createNode)).take 5

/-- Concrete fixture: the entry for "happy" with definition "joyful". -/
def entryHappy : DictionaryEntry :=
  ⟨"happy".toList, [], [⟨"word".toList, ["joyful".toList], []⟩], []⟩

/-- Concrete fixture: the entry for "happier". -/
def entryHappier : DictionaryEntry :=
  ⟨"happier".toList, [], [⟨"word".toList, [[]], []⟩], []⟩

/-- Concrete fixture: an exact-match entry for the query "cat" with no
definition/example/translation bonuses. -/
def entryCat : DictionaryEntry :=
  ⟨"cat".toList, [], [⟨"word".toList, [[]], []⟩], []⟩

/-- Concrete fixture: an entry whose word does not match "cat" at all but
whose ten definitions each contain "cat" as a substring. -/
def entryDogTenDefs : DictionaryEntry :=
  ⟨"dog".toList, [],
    List.replicate 10 ⟨"word".toList, ["the cat".toList], []⟩, []⟩

/-- Concrete fixture: a second source's exact-match entry for "cat". -/
def entryCatVt : DictionaryEntry :=
  ⟨"Cat".toList, [], [⟨"word".toList, ["a feline".toList], []⟩], []⟩

/-- Concrete fixture: cache configuration with a total-size budget of 10. -/
def cfgSmall : CacheConfigM := ⟨86400000, 1000, 10, .both⟩

/-- Concrete fixture: the empty cache state. -/
def emptyCache : CacheStateM := ⟨[], [], 0⟩

/-- Concrete fixture: an entry whose word does not match "cat" but with a
single definition containing "cat". -/
def entryDogOneDef : DictionaryEntry :=
  ⟨"dog".toList, [], [⟨"word".toList, ["the cat".toList], []⟩], []⟩

theorem Char.toLower_toLower (c : Char) : c.toLower.toLower = c.toLower := by
  unfold Char.toLower
  by_cases h : c.toNat ≥ 65 ∧ c.toNat ≤ 90
  · rw [if_pos h]
    have hv : Nat.isValidChar (c.toNat + 32) := by
      left
      omega
    have ht : (Char.ofNat (c.toNat + 32)).toNat = c.toNat + 32 := by
      unfold Char.ofNat
      rw [dif_pos hv]
      rfl
    rw [if_neg]
    omega
  · rw [if_neg h, if_neg h]

theorem toLowerStr_idem (s : List Char) :
    toLowerStr (toLowerStr s) = toLowerStr s := by
  unfold toLowerStr
  rw [List.map_map]
  exact List.map_congr_left fun a _ => Char.toLower_toLower a

theorem toLowerStr_take (k : Nat) (s : List Char) :
    toLowerStr (s.take k) = (toLowerStr s).take k := by
  unfold toLowerStr
  exact List.map_take ..

theorem toLowerStr_length (s : List Char) :
    (toLowerStr s).length = s.length := by
  unfold toLowerStr
  exact List.length_map ..

theorem alookup_replaceChild_self (c : Char) (n : TrieNode)
    (cs : List (Char × TrieNode)) :
    alookup c (replaceChild c n cs) = some n := by
  induction cs with
  | nil => simp [replaceChild, alookup]
  | cons p rest ih =>
    obtain ⟨c', m⟩ := p
    by_cases h : c' = c
    · simp [replaceChild, h, alookup]
    · simp [replaceChild, h, alookup, ih]

theorem alookup_replaceChild_ne (c c' : Char) (n : TrieNode)
    (cs : List (Char × TrieNode)) (h : c' ≠ c) :
    alookup c' (replaceChild c n cs) = alookup c' cs := by
  have hcc : c ≠ c' := fun hc => h hc.symm
  induction cs with
  | nil => simp [replaceChild, alookup, hcc]
  | cons p rest ih =>
    obtain ⟨c'', m⟩ := p
    by_cases h2 : c'' = c
    · subst h2
      simp [replaceChild, alookup, hcc]
    · simp [replaceChild, alookup, h2, ih]

theorem mem_addEntry_self (did : List Char) (e : DictionaryEntry)
    (ents : List (List Char × List DictionaryEntry)) :
    e ∈ (alookup did (addEntry did e ents)).getD [] := by
  induction ents with
  | nil => simp [addEntry, alookup]
  | cons p rest ih =>
    obtain ⟨d, es⟩ := p
    by_cases h : d = did
    · subst h
      by_cases he : e ∈ es <;> simp [addEntry, alookup, he]
    · simp [addEntry, alookup, h, ih]

theorem mem_addEntry_mono (did' did : List Char) (e x : DictionaryEntry)
    (ents : List (List Char × List DictionaryEntry))
    (hx : x ∈ (alookup did' ents).getD []) :
    x ∈ (alookup did' (addEntry did e ents)).getD [] := by
  induction ents with
  | nil => simp [alookup] at hx
  | cons p rest ih =>
    obtain ⟨d, es⟩ := p
    by_cases h : d = did
    · subst h
      by_cases h2 : d = did'
      · subst h2
        simp [alookup] at hx
        by_cases he : e ∈ es <;> simp [addEntry, alookup, he, hx]
      · by_cases he : e ∈ es <;>
          simpa [addEntry, alookup, h2, he] using (by simpa [alookup, h2] using hx)
    · by_cases h2 : d = did'
      · subst h2
        simpa [addEntry, alookup, h] using (by simpa [alookup] using hx)
      · exact by simpa [addEntry, alookup, h, h2] using ih (by simpa [alookup, h2] using hx)

theorem nodeAtD_createNode (p : List Char) :
    nodeAtD p createNode = createNode := by
  induction p with
  | nil => rfl
  | cons c p ih =>
    calc nodeAtD (c :: p) createNode = nodeAtD p createNode := rfl
    _ = createNode := ih

theorem nodeAtD_append (p r : List Char) (t : TrieNode) :
    nodeAtD (p ++ r) t = nodeAtD r (nodeAtD p t) := by
  induction p generalizing t with
  | nil => rfl
  | cons c p ih => simp [nodeAtD, ih]

theorem nodeAtD_eq_of_findNode (p : List Char) (t n : TrieNode)
    (h : findNode p t = some n) : nodeAtD p t = n := by
  induction p generalizing t with
  | nil =>
    simp [findNode] at h
    simpa [nodeAtD] using h
  | cons c p ih =>
    unfold findNode at h
    cases hl : alookup c t.children with
    | none => rw [hl] at h; exact absurd h (by simp)
    | some child =>
      rw [hl] at h
      simpa [nodeAtD, hl] using ih child h

theorem nodeAtD_of_findNode_none (p : List Char) (t : TrieNode)
    (h : findNode p t = none) : nodeAtD p t = createNode := by
  induction p generalizing t with
  | nil => simp [findNode] at h
  | cons c p ih =>
    unfold findNode at h
    cases hl : alookup c t.children with
    | none => simp [nodeAtD, hl, nodeAtD_createNode]
    | some child =>
      rw [hl] at h
      simpa [nodeAtD, hl] using ih child h

theorem entriesFor_createNode (did : List Char) :
    entriesFor did createNode = [] := rfl

theorem findNode_insertWord (did : List Char) (e : DictionaryEntry) :
    ∀ (p r : List Char) (t : TrieNode),
      findNode p (insertWord did e (p ++ r) t) =
        some (insertWord did e r (nodeAtD p t)) := by
  intro p
  induction p with
  | nil => intro r t; rfl
  | cons c p ih =>
    intro r t
    obtain ⟨cs, b, ents⟩ := t
    have h1 : insertWord did e ((c :: p) ++ r) (TrieNode.mk cs b ents) =
        TrieNode.mk (replaceChild c
          (insertWord did e (p ++ r) ((alookup c cs).getD createNode)) cs)
          b ents := rfl
    rw [h1]
    have h2 : findNode (c :: p) (TrieNode.mk (replaceChild c
        (insertWord did e (p ++ r) ((alookup c cs).getD createNode)) cs)
        b ents) =
        findNode p (insertWord did e (p ++ r) ((alookup c cs).getD createNode)) := by
      show (match alookup c (replaceChild c
          (insertWord did e (p ++ r) ((alookup c cs).getD createNode)) cs) with
        | none => none
        | some child => findNode p child) = _
      rw [alookup_replaceChild_self]
    rw [h2, ih r ((alookup c cs).getD createNode)]
    rfl

theorem insertWord_nil_isEnd (did : List Char) (e : DictionaryEntry)
    (t : TrieNode) : (insertWord did e [] t).isEndOfWord = true := by
  obtain ⟨cs, b, ents⟩ := t
  rfl

theorem insertWord_nil_mem (did : List Char) (e : DictionaryEntry)
    (t : TrieNode) : e ∈ entriesFor did (insertWord did e [] t) := by
  obtain ⟨cs, b, ents⟩ := t
  simpa [insertWord, entriesFor, TrieNode.entriesMap] using
    mem_addEntry_self did e ents

theorem nodeAtD_insertWord_mono (did did' : List Char)
    (e : DictionaryEntry) :
    ∀ (w : List Char) (t : TrieNode) (p : List Char),
      ((nodeAtD p t).isEndOfWord = true →
        (nodeAtD p (insertWord did e w t)).isEndOfWord = true) ∧
      (∀ x, x ∈ entriesFor did' (nodeAtD p t) →
        x ∈ entriesFor did' (nodeAtD p (insertWord did e w t))) := by
  intro w
  induction w with
  | nil =>
    intro t p
    obtain ⟨cs, b, ents⟩ := t
    have hw : insertWord did e [] (TrieNode.mk cs b ents) =
        TrieNode.mk cs true (addEntry did e ents) := rfl
    rw [hw]
    cases p with
    | nil =>
      refine ⟨fun _ => rfl, fun x hx => ?_⟩
      exact mem_addEntry_mono did' did e x ents hx
    | cons c p' =>
      have hstep : ∀ (b' : Bool) ents',
          nodeAtD (c :: p') (TrieNode.mk cs b' ents') =
          nodeAtD p' ((alookup c cs).getD createNode) := fun _ _ => rfl
      rw [hstep b ents, hstep true (addEntry did e ents)]
      exact ⟨id, fun x hx => hx⟩
  | cons c w' ih =>
    intro t p
    obtain ⟨cs, b, ents⟩ := t
    have hw : insertWord did e (c :: w') (TrieNode.mk cs b ents) =
        TrieNode.mk (replaceChild c
          (insertWord did e w' ((alookup c cs).getD createNode)) cs) b ents := rfl
    rw [hw]
    cases p with
    | nil => exact ⟨id, fun x hx => hx⟩
    | cons c' p' =>
      have hstep : ∀ cs' (b' : Bool) ents',
          nodeAtD (c' :: p') (TrieNode.mk cs' b' ents') =
          nodeAtD p' ((alookup c' cs').getD createNode) := fun _ _ _ => rfl
      rw [hstep cs b ents, hstep _ b ents]
      by_cases hc : c' = c
      · subst hc
        rw [alookup_replaceChild_self]
        exact ih ((alookup c' cs).getD createNode) p'
      · rw [alookup_replaceChild_ne c c' _ cs hc]
        exact ⟨id, fun x hx => hx⟩

theorem foldl_preserves {α : Type} (P : TrieNode → Prop)
    (f : TrieNode → α → TrieNode) (hf : ∀ t a, P t → P (f t a)) :
    ∀ (l : List α) (t : TrieNode), P t → P (l.foldl f t) := by
  intro l
  induction l with
  | nil => exact fun t h => h
  | cons a l ih => exact fun t h => ih (f t a) (hf t a h)

theorem insertEntry_preserves (did did' lw : List Char) (e : DictionaryEntry)
    (t : TrieNode) (e' : DictionaryEntry) (x : DictionaryEntry)
    (h1 : (nodeAtD lw t).isEndOfWord = true)
    (h2 : x ∈ entriesFor did' (nodeAtD lw t)) :
    (nodeAtD lw (insertEntry did t e')).isEndOfWord = true ∧
      x ∈ entriesFor did' (nodeAtD lw (insertEntry did t e')) := by
  unfold insertEntry
  have base := nodeAtD_insertWord_mono did did' e' (toLowerStr e'.word) t lw
  refine foldl_preserves
    (fun t => (nodeAtD lw t).isEndOfWord = true ∧
      x ∈ entriesFor did' (nodeAtD lw t))
    _ ?_ (defTokens e') _ ⟨base.1 h1, base.2 x h2⟩
  intro t' w h
  by_cases hlen : w.length > 2
  · have m := nodeAtD_insertWord_mono did did' e' w t' lw
    simpa [hlen] using ⟨m.1 h.1, m.2 x h.2⟩
  · simpa [hlen] using h

theorem insertEntry_establishes (did : List Char) (e : DictionaryEntry)
    (t : TrieNode) :
    (nodeAtD (toLowerStr e.word) (insertEntry did t e)).isEndOfWord = true ∧
      e ∈ entriesFor did (nodeAtD (toLowerStr e.word) (insertEntry did t e)) := by
  unfold insertEntry
  have hfind := findNode_insertWord did e (toLowerStr e.word) [] t
  rw [List.append_nil] at hfind
  have hnode := nodeAtD_eq_of_findNode _ _ _ hfind
  have hbase1 : (nodeAtD (toLowerStr e.word)
      (insertWord did e (toLowerStr e.word) t)).isEndOfWord = true := by
    rw [hnode]
    exact insertWord_nil_isEnd did e _
  have hbase2 : e ∈ entriesFor did (nodeAtD (toLowerStr e.word)
      (insertWord did e (toLowerStr e.word) t)) := by
    rw [hnode]
    exact insertWord_nil_mem did e _
  refine foldl_preserves
    (fun t' => (nodeAtD (toLowerStr e.word) t').isEndOfWord = true ∧
      e ∈ entriesFor did (nodeAtD (toLowerStr e.word) t'))
    _ ?_ (defTokens e) _ ⟨hbase1, hbase2⟩
  intro t' w h
  by_cases hlen : w.length > 2
  · have m := nodeAtD_insertWord_mono did did e w t' (toLowerStr e.word)
    simpa [hlen] using ⟨m.1 h.1, m.2 e h.2⟩
  · simpa [hlen] using h

theorem initialize_indexes (dict : List DictionaryEntry) (did : List Char)
    (t : TrieNode) (e : DictionaryEntry) (he : e ∈ dict) :
    (nodeAtD (toLowerStr e.word)
        (initializeTrie dict did t)).isEndOfWord = true ∧
      e ∈ entriesFor did
        (nodeAtD (toLowerStr e.word) (initializeTrie dict did t)) := by
  obtain ⟨l1, l2, rfl⟩ := List.append_of_mem he
  unfold initializeTrie
  rw [List.foldl_append, List.foldl_cons]
  have hbase := insertEntry_establishes did e (l1.foldl (insertEntry did) t)
  refine foldl_preserves
    (fun t' => (nodeAtD (toLowerStr e.word) t').isEndOfWord = true ∧
      e ∈ entriesFor did (nodeAtD (toLowerStr e.word) t'))
    _ ?_ l2 _ hbase
  intro t' e' h
  exact insertEntry_preserves did did (toLowerStr e.word) e t' e' e h.1 h.2

theorem mem_collectChildren_of_alookup (did : List Char) (x : DictionaryEntry) :
    ∀ (cs : List (Char × TrieNode)) (c : Char) (ch : TrieNode),
      alookup c cs = some ch → x ∈ collectAllEntries did ch →
      x ∈ collectChildren did cs := by
  intro cs
  induction cs with
  | nil => intro c ch h; simp [alookup] at h
  | cons p rest ih =>
    intro c ch h hx
    obtain ⟨c', m⟩ := p
    rw [show collectChildren did ((c', m) :: rest) =
      collectAllEntries did m ++ collectChildren did rest from rfl]
    by_cases hc : c' = c
    · have : some m = some ch := by simpa [alookup, hc] using h
      exact List.mem_append_left _ (by rw [Option.some_inj.mp this]; exact hx)
    · exact List.mem_append_right _
        (ih c ch (by simpa [alookup, hc] using h) hx)

theorem entriesFor_mem_collect (did : List Char) (x : DictionaryEntry) :
    ∀ (r : List Char) (m : TrieNode),
      x ∈ entriesFor did (nodeAtD r m) → x ∈ collectAllEntries did m := by
  intro r
  induction r with
  | nil =>
    intro m hx
    obtain ⟨cs, b, ents⟩ := m
    rw [show collectAllEntries did (TrieNode.mk cs b ents) =
      (alookup did ents).getD [] ++ collectChildren did cs from rfl]
    exact List.mem_append_left _
      (by simpa [entriesFor, TrieNode.entriesMap, nodeAtD] using hx)
  | cons c r' ih =>
    intro m hx
    have hstep : nodeAtD (c :: r') m =
        nodeAtD r' ((alookup c m.children).getD createNode) := rfl
    rw [hstep] at hx
    cases hl : alookup c m.children with
    | none =>
      rw [hl] at hx
      rw [show (none : Option TrieNode).getD createNode = createNode from rfl,
        nodeAtD_createNode] at hx
      exact absurd hx (by simp [entriesFor_createNode])
    | some ch =>
      rw [hl] at hx
      have hmem := ih ((some ch).getD createNode) hx
      obtain ⟨cs, b, ents⟩ := m
      rw [show collectAllEntries did (TrieNode.mk cs b ents) =
        (alookup did ents).getD [] ++ collectChildren did cs from rfl]
      refine List.mem_append_right _ ?_
      exact mem_collectChildren_of_alookup did x cs c ch
        (by simpa [TrieNode.children] using hl) (by simpa using hmem)

/-- C1: prefix completeness — every entry indexed under source `did` by
`TrieService.initialize` is returned by `TrieService.search` for every
non-empty prefix (of length `1 ≤ k ≤ length of the word`) of its lowercased
word: the search walks to the prefix node and collects the entries of the
node and its entire subtree for that source. -/
theorem C1_prefix_completeness (dict : List DictionaryEntry)
    (did : List Char) (t : TrieNode) (e : DictionaryEntry) (k : Nat)
    (he : e ∈ dict) (hk1 : 1 ≤ k) (hk2 : k ≤ e.word.length) :
    e ∈ trieSearch ((toLowerStr e.word).take k) did
      (initializeTrie dict did t) := by
  have hidx := initialize_indexes dict did t e he
  unfold trieSearch
  have hlow : toLowerStr ((toLowerStr e.word).take k) =
      (toLowerStr e.word).take k := by
    rw [← toLowerStr_take]
    exact toLowerStr_idem _
  rw [hlow]
  have hsplit : toLowerStr e.word =
      (toLowerStr e.word).take k ++ (toLowerStr e.word).drop k :=
    (List.take_append_drop k _).symm
  rw [hsplit, nodeAtD_append] at hidx
  cases hfn : findNode ((toLowerStr e.word).take k)
      (initializeTrie dict did t) with
  | none =>
    exfalso
    rw [nodeAtD_of_findNode_none _ _ hfn, nodeAtD_createNode] at hidx
    exact absurd hidx.2 (by simp [entriesFor_createNode])
  | some n =>
    rw [nodeAtD_eq_of_findNode _ _ _ hfn] at hidx
    exact entriesFor_mem_collect did e _ n hidx.2

/-- C1 witness: the entry for "happy" is found under its prefixes. -/
theorem C1_witness :
    entryHappy ∈ trieSearch ((toLowerStr entryHappy.word).take 4) "gpt".toList
      (initializeTrie [entryHappy, entryHappier] "gpt".toList createNode) :=
  C1_prefix_completeness [entryHappy, entryHappier] "gpt".toList createNode
    entryHappy 4 (by decide) (by decide) (by decide)

theorem mem_fuzzyKids_of_alookup (did q : List Char) (maxD : Int)
    (x : DictionaryEntry) :
    ∀ (cs : List (Char × TrieNode)) (c : Char) (ch : TrieNode)
      (cur : List Char) (rem : Int),
      alookup c cs = some ch →
      x ∈ fuzzyGo did q maxD ch (cur ++ [c]) rem →
      x ∈ fuzzyKids did q maxD cs cur rem := by
  intro cs
  induction cs with
  | nil => intro c ch cur rem h; simp [alookup] at h
  | cons p rest ih =>
    intro c ch cur rem h hx
    obtain ⟨c', m⟩ := p
    rw [show fuzzyKids did q maxD ((c', m) :: rest) cur rem =
      fuzzyGo did q maxD m (cur ++ [c']) rem ++
        fuzzyKids did q maxD rest cur rem from rfl]
    by_cases hc : c' = c
    · subst hc
      have : some m = some ch := by simpa [alookup] using h
      exact List.mem_append_left _ (by rw [Option.some_inj.mp this]; exact hx)
    · exact List.mem_append_right _
        (ih c ch cur rem (by simpa [alookup, hc] using h) hx)

theorem fuzzyGo_complete (did q : List Char) (maxD : Int)
    (x : DictionaryEntry) :
    ∀ (r : List Char) (t : TrieNode) (cur : List Char) (rem : Int),
      0 ≤ rem →
      (nodeAtD r t).isEndOfWord = true →
      x ∈ entriesFor did (nodeAtD r t) →
      (levenshteinDistance (cur ++ r) q : Int) ≤ maxD →
      x ∈ fuzzyGo did q maxD t cur rem := by
  intro r
  induction r with
  | nil =>
    intro t cur rem hrem hend hmem hdist
    obtain ⟨cs, b, ents⟩ := t
    rw [show fuzzyGo did q maxD (TrieNode.mk cs b ents) cur rem =
      (if rem < 0 then []
      else
        (if b = true ∧ (levenshteinDistance cur q : Int) ≤ maxD then
          (alookup did ents).getD []
        else []) ++ fuzzyKids did q maxD cs cur rem) from rfl]
    rw [if_neg (by omega)]
    have hb : b = true := hend
    have hd : (levenshteinDistance cur q : Int) ≤ maxD := by
      simpa using hdist
    rw [if_pos ⟨hb, hd⟩]
    exact List.mem_append_left _
      (by simpa [entriesFor, TrieNode.entriesMap, nodeAtD] using hmem)
  | cons c r' ih =>
    intro t cur rem hrem hend hmem hdist
    obtain ⟨cs, b, ents⟩ := t
    have hstep : nodeAtD (c :: r') (TrieNode.mk cs b ents) =
        nodeAtD r' ((alookup c cs).getD createNode) := rfl
    rw [hstep] at hend hmem
    cases hl : alookup c cs with
    | none =>
      exfalso
      rw [hl] at hend
      rw [show (none : Option TrieNode).getD createNode = createNode from rfl,
        nodeAtD_createNode] at hend
      exact absurd hend (by simp [createNode, TrieNode.isEndOfWord])
    | some ch =>
      rw [hl] at hend hmem
      rw [show fuzzyGo did q maxD (TrieNode.mk cs b ents) cur rem =
        (if rem < 0 then []
        else
          (if b = true ∧ (levenshteinDistance cur q : Int) ≤ maxD then
            (alookup did ents).getD []
          else []) ++ fuzzyKids did q maxD cs cur rem) from rfl]
      rw [if_neg (by omega)]
      refine List.mem_append_right _ ?_
      refine mem_fuzzyKids_of_alookup did q maxD x cs c ch cur rem hl ?_
      refine ih ch (cur ++ [c]) rem hrem (by simpa using hend)
        (by simpa using hmem) ?_
      rw [List.append_assoc]
      simpa using hdist

/-- C2: fuzzy bound — for every entry indexed under source `did`, if the
Levenshtein distance between its lowercased word and the lowercased query is
at most `maxDistance`, then `TrieService.fuzzySearch` returns the entry. -/
theorem C2_fuzzy_bound (dict : List DictionaryEntry) (did : List Char)
    (t : TrieNode) (e : DictionaryEntry) (q : List Char) (maxD : Int)
    (he : e ∈ dict)
    (hd : (levenshteinDistance (toLowerStr e.word) (toLowerStr q) : Int) ≤ maxD) :
    e ∈ fuzzySearch q did maxD (initializeTrie dict did t) := by
  have hidx := initialize_indexes dict did t e he
  unfold fuzzySearch
  refine fuzzyGo_complete did (toLowerStr q) maxD e (toLowerStr e.word)
    (initializeTrie dict did t) [] maxD ?_ hidx.1 hidx.2 (by simpa using hd)
  have : (0 : Int) ≤ (levenshteinDistance (toLowerStr e.word)
      (toLowerStr q) : Int) := Int.natCast_nonneg _
  omega

/-- C2 witness: "happy" is within distance 1 of the query "hapy" and is
returned by the fuzzy search. -/
theorem C2_witness :
    entryHappy ∈ fuzzySearch "hapy".toList "gpt".toList 1
      (initializeTrie [entryHappy, entryHappier] "gpt".toList createNode) :=
  C2_fuzzy_bound [entryHappy, entryHappier] "gpt".toList createNode
    entryHappy "hapy".toList 1 (by decide) (by decide)

mutual
theorem fuzzyGo_eq_ref (did q : List Char) (maxD : Int) :
    ∀ (t : TrieNode) (cur : List Char) (rem : Int), 0 ≤ rem →
      fuzzyGo did q maxD t cur rem = fuzzyRefGo did q maxD t cur
  | .mk cs isEnd ents, cur, rem, hrem => by
    rw [show fuzzyGo did q maxD (TrieNode.mk cs isEnd ents) cur rem =
      (if rem < 0 then []
      else
        (if isEnd = true ∧ (levenshteinDistance cur q : Int) ≤ maxD then
          (alookup did ents).getD []
        else []) ++ fuzzyKids did q maxD cs cur rem) from rfl]
    rw [if_neg (by omega)]
    rw [show fuzzyRefGo did q maxD (TrieNode.mk cs isEnd ents) cur =
      (if isEnd = true ∧ (levenshteinDistance cur q : Int) ≤ maxD then
        (alookup did ents).getD []
      else []) ++ fuzzyRefKids did q maxD cs cur from rfl]
    rw [fuzzyKids_eq_ref did q maxD cs cur rem hrem]
theorem fuzzyKids_eq_ref (did q : List Char) (maxD : Int) :
    ∀ (cs : List (Char × TrieNode)) (cur : List Char) (rem : Int), 0 ≤ rem →
      fuzzyKids did q maxD cs cur rem = fuzzyRefKids did q maxD cs cur
  | [], _, _, _ => rfl
  | (c, t) :: rest, cur, rem, hrem => by
    rw [show fuzzyKids did q maxD ((c, t) :: rest) cur rem =
      fuzzyGo did q maxD t (cur ++ [c]) rem ++
        fuzzyKids did q maxD rest cur rem from rfl]
    rw [show fuzzyRefKids did q maxD ((c, t) :: rest) cur =
      fuzzyRefGo did q maxD t (cur ++ [c]) ++
        fuzzyRefKids did q maxD rest cur from rfl]
    rw [fuzzyGo_eq_ref did q maxD t (cur ++ [c]) rem hrem,
      fuzzyKids_eq_ref did q maxD rest cur rem hrem]
end

/-- C10: the fuzzy search never prunes — the distance budget is passed to
every child unchanged, so for every non-negative `maxDistance` the walk
visits the entire trie and `fuzzySearch` coincides with the unpruned
reference traversal that collects, in traversal order, the source's entries
of exactly those end-of-word nodes whose path string is within Levenshtein
distance `maxDistance` of the lowercased query. -/
theorem C10_fuzzy_no_pruning (q did : List Char) (maxD : Int) (t : TrieNode)
    (h : 0 ≤ maxD) :
    fuzzySearch q did maxD t = fuzzySearchRef q did maxD t :=
  fuzzyGo_eq_ref did (toLowerStr q) maxD t [] maxD h

/-- C10 witness: the pruned and the reference traversal agree on a concrete
trie and query. -/
theorem C10_witness :
    fuzzySearch "hapy".toList "gpt".toList 2
        (initializeTrie [entryHappy, entryHappier] "gpt".toList createNode) =
      fuzzySearchRef "hapy".toList "gpt".toList 2
        (initializeTrie [entryHappy, entryHappier] "gpt".toList createNode) :=
  C10_fuzzy_no_pruning "hapy".toList "gpt".toList 2
    (initializeTrie [entryHappy, entryHappier] "gpt".toList createNode)
    (by decide)

theorem lev_nil (b : List Char) : lev [] b = b.length := by
  simp [lev]

theorem lev_nil_right (a : List Char) : lev a [] = a.length := by
  cases a <;> simp [lev]

theorem lev_cons_cons (x y : Char) (a b : List Char) :
    lev (x :: a) (y :: b) =
      if x = y then lev a b
      else 1 + min (min (lev a b) (lev (x :: a) b)) (lev a (y :: b)) := by
  simp only [lev]

theorem lev_self : ∀ u : List Char, lev u u = 0 := by
  intro u
  induction u with
  | nil => simp [lev]
  | cons x u ih => simp [lev_cons_cons, ih]

theorem lev_eq_zero : ∀ u v : List Char, lev u v = 0 → u = v := by
  intro u
  induction u with
  | nil =>
    intro v h
    rw [lev_nil] at h
    exact (List.eq_nil_of_length_eq_zero h).symm
  | cons x u ih =>
    intro v h
    cases v with
    | nil => rw [lev_nil_right] at h; simp at h
    | cons y v =>
      rw [lev_cons_cons] at h
      by_cases hxy : x = y
      · rw [if_pos hxy] at h
        rw [hxy, ih v h]
      · rw [if_neg hxy] at h
        omega

theorem levBounds : ∀ (n : Nat) (s w : List Char), s.length + w.length ≤ n →
    (∀ x, lev (x :: s) w ≤ 1 + lev s w) ∧
    (∀ x, lev s w ≤ 1 + lev (x :: s) w) ∧
    (∀ y, lev s (y :: w) ≤ 1 + lev s w) ∧
    (∀ y, lev s w ≤ 1 + lev s (y :: w)) := by
  intro n
  induction n with
  | zero =>
    intro s w h
    have hs : s = [] := List.eq_nil_of_length_eq_zero (by omega)
    have hw : w = [] := List.eq_nil_of_length_eq_zero (by omega)
    subst hs; subst hw
    refine ⟨fun x => ?_, fun x => ?_, fun y => ?_, fun y => ?_⟩ <;>
      simp [lev_nil, lev_nil_right]
  | succ n ih =>
    intro s w h
    refine ⟨fun x => ?_, fun x => ?_, fun y => ?_, fun y => ?_⟩
    · cases w with
      | nil => rw [lev_nil_right, lev_nil_right]; simp; omega
      | cons y w' =>
        rw [lev_cons_cons]
        by_cases hxy : x = y
        · rw [if_pos hxy]
          have hIR := (ih s w' (by simp at h ⊢; omega)).2.2.2 y
          omega
        · rw [if_neg hxy]
          have h3 : min (min (lev s w') (lev (x :: s) w')) (lev s (y :: w')) ≤
              lev s (y :: w') := min_le_right _ _
          omega
    · cases w with
      | nil => rw [lev_nil_right, lev_nil_right]; simp; omega
      | cons y w' =>
        rw [show lev (x :: s) (y :: w') =
          (if x = y then lev s w'
          else 1 + min (min (lev s w') (lev (x :: s) w')) (lev s (y :: w')))
          from lev_cons_cons x y s w']
        by_cases hxy : x = y
        · rw [if_pos hxy]
          have hDR := (ih s w' (by simp at h ⊢; omega)).2.2.1 y
          omega
        · rw [if_neg hxy]
          have hDR := (ih s w' (by simp at h ⊢; omega)).2.2.1 y
          have hIL := (ih s w' (by simp at h ⊢; omega)).2.1 x
          omega
    · cases s with
      | nil => rw [lev_nil, lev_nil]; simp; omega
      | cons x s' =>
        rw [lev_cons_cons]
        by_cases hxy : x = y
        · rw [if_pos hxy]
          have hIL := (ih s' w (by simp at h ⊢; omega)).2.1 x
          rw [hxy] at hIL ⊢
          omega
        · rw [if_neg hxy]
          have h2 : min (min (lev s' w) (lev (x :: s') w)) (lev s' (y :: w)) ≤
              lev (x :: s') w :=
            le_trans (min_le_left _ _) (min_le_right _ _)
          omega
    · cases s with
      | nil => rw [lev_nil, lev_nil]; simp; omega
      | cons x s' =>
        rw [show lev (x :: s') (y :: w) =
          (if x = y then lev s' w
          else 1 + min (min (lev s' w) (lev (x :: s') w)) (lev s' (y :: w)))
          from lev_cons_cons x y s' w]
        by_cases hxy : x = y
        · rw [if_pos hxy]
          have hDL := (ih s' w (by simp at h ⊢; omega)).1 x
          omega
        · rw [if_neg hxy]
          have hDL := (ih s' w (by simp at h ⊢; omega)).1 x
          have hIR := (ih s' w (by simp at h ⊢; omega)).2.2.2 y
          omega

theorem lev_cons_le (s w : List Char) (x : Char) :
    lev (x :: s) w ≤ 1 + lev s w :=
  (levBounds (s.length + w.length) s w le_rfl).1 x

theorem le_lev_cons (s w : List Char) (x : Char) :
    lev s w ≤ 1 + lev (x :: s) w :=
  (levBounds (s.length + w.length) s w le_rfl).2.1 x

theorem lev_consR_le (s w : List Char) (y : Char) :
    lev s (y :: w) ≤ 1 + lev s w :=
  (levBounds (s.length + w.length) s w le_rfl).2.2.1 y

theorem le_lev_consR (s w : List Char) (y : Char) :
    lev s w ≤ 1 + lev s (y :: w) :=
  (levBounds (s.length + w.length) s w le_rfl).2.2.2 y

theorem levSubCons : ∀ (w s : List Char) (x y : Char),
    lev (x :: s) w ≤ 1 + lev (y :: s) w := by
  intro w
  induction w with
  | nil =>
    intro s x y
    rw [lev_nil_right, lev_nil_right]
    simp
  | cons z w' ih =>
    intro s x y
    rw [lev_cons_cons, lev_cons_cons]
    by_cases hxz : x = z <;> by_cases hyz : y = z
    · rw [if_pos hxz, if_pos hyz]; omega
    · rw [if_pos hxz, if_neg hyz]
      have hIL := le_lev_cons s w' y
      have hIR := le_lev_consR s w' z
      omega
    · rw [if_neg hxz, if_pos hyz]
      have h1 : min (min (lev s w') (lev (x :: s) w')) (lev s (z :: w')) ≤
          lev s w' := le_trans (min_le_left _ _) (min_le_left _ _)
      omega
    · rw [if_neg hxz, if_neg hyz]
      have hsub := ih s x y
      have h1 : min (min (lev s w') (lev (x :: s) w')) (lev s (z :: w')) ≤
          min (min (lev s w') (1 + lev (y :: s) w')) (lev s (z :: w')) := by
        omega
      omega

theorem lev_append_le (al be : List Char)
    (hbase : ∀ w, lev al w ≤ 1 + lev be w) :
    ∀ (p w : List Char), lev (p ++ al) w ≤ 1 + lev (p ++ be) w := by
  intro p
  induction p with
  | nil => exact hbase
  | cons a p' ihp =>
    intro w
    induction w with
    | nil =>
      rw [List.cons_append, lev_nil_right, List.cons_append, lev_nil_right]
      have hb := hbase []
      rw [lev_nil_right, lev_nil_right] at hb
      simp only [List.length_append, List.length_cons]
      omega
    | cons b w' ihw =>
      rw [List.cons_append, List.cons_append, lev_cons_cons, lev_cons_cons]
      by_cases hab : a = b
      · rw [if_pos hab, if_pos hab]
        exact ihp w'
      · rw [if_neg hab, if_neg hab]
        have h1 := ihp w'
        have h2 : lev (a :: (p' ++ al)) w' ≤ 1 + lev (a :: (p' ++ be)) w' := by
          simpa [List.cons_append] using ihw
        have h3 := ihp (b :: w')
        omega

theorem lev_le_of_editStep (u v : List Char) (h : EditStep u v) :
    ∀ w, lev u w ≤ 1 + lev v w := by
  rcases h with ⟨p, s, x, hu, hv⟩ | ⟨p, s, x, hu, hv⟩ | ⟨p, s, x, y, hu, hv⟩
  · subst hu; subst hv
    exact lev_append_le (x :: s) s (fun w => lev_cons_le s w x) p
  · subst hu; subst hv
    exact lev_append_le s (x :: s) (fun w => le_lev_cons s w x) p
  · subst hu; subst hv
    exact lev_append_le (x :: s) (y :: s) (fun w => levSubCons w s x y) p

theorem lev_le_of_edits : ∀ {n : Nat} {u v : List Char},
    Edits n u v → lev u v ≤ n := by
  intro n u v h
  induction h with
  | refl u => rw [lev_self]
  | @step u' v' w' n' hstep _ ih =>
    have hl := lev_le_of_editStep u' v' hstep w'
    omega

theorem edits_trans : ∀ {m n : Nat} {u v w : List Char},
    Edits m u v → Edits n v w → Edits (m + n) u w := by
  intro m n u v w h1 h2
  induction h1 with
  | refl u => simpa using h2
  | step hs _ ih =>
    rw [Nat.add_right_comm]
    exact Edits.step hs (ih h2)

theorem editStep_cons (c : Char) {u v : List Char} (h : EditStep u v) :
    EditStep (c :: u) (c :: v) := by
  rcases h with ⟨p, s, x, hu, hv⟩ | ⟨p, s, x, hu, hv⟩ | ⟨p, s, x, y, hu, hv⟩
  · exact Or.inl ⟨c :: p, s, x, by rw [hu]; rfl, by rw [hv]; rfl⟩
  · exact Or.inr (Or.inl ⟨c :: p, s, x, by rw [hu]; rfl, by rw [hv]; rfl⟩)
  · exact Or.inr (Or.inr ⟨c :: p, s, x, y, by rw [hu]; rfl, by rw [hv]; rfl⟩)

theorem edits_cons (c : Char) : ∀ {n : Nat} {u v : List Char},
    Edits n u v → Edits n (c :: u) (c :: v) := by
  intro n u v h
  induction h with
  | refl u => exact Edits.refl (c :: u)
  | step hs _ ih => exact Edits.step (editStep_cons c hs) ih

theorem edits_single {u v : List Char} (h : EditStep u v) : Edits 1 u v :=
  Edits.step h (Edits.refl v)

theorem edits_nil_insert : ∀ v : List Char, Edits v.length [] v := by
  intro v
  induction v with
  | nil => exact Edits.refl []
  | cons y v' ih =>
    exact Edits.step (Or.inr (Or.inl ⟨[], [], y, rfl, rfl⟩)) (edits_cons y ih)

theorem edits_nil_delete : ∀ u : List Char, Edits u.length u [] := by
  intro u
  induction u with
  | nil => exact Edits.refl []
  | cons x u' ih =>
    exact Edits.step (Or.inl ⟨[], u', x, rfl, rfl⟩) ih

theorem edits_of_lev : ∀ (N : Nat) (u v : List Char),
    u.length + v.length ≤ N → Edits (lev u v) u v := by
  intro N
  induction N with
  | zero =>
    intro u v h
    have hu : u = [] := List.eq_nil_of_length_eq_zero (by omega)
    have hv : v = [] := List.eq_nil_of_length_eq_zero (by omega)
    subst hu; subst hv
    rw [show lev [] [] = 0 from lev_self []]
    exact Edits.refl []
  | succ N ih =>
    intro u v h
    cases u with
    | nil =>
      rw [lev_nil]
      exact edits_nil_insert v
    | cons x u' =>
      cases v with
      | nil =>
        rw [lev_nil_right]
        exact edits_nil_delete (x :: u')
      | cons y v' =>
        rw [lev_cons_cons]
        by_cases hxy : x = y
        · rw [if_pos hxy]
          subst hxy
          exact edits_cons x (ih u' v' (by simp at h ⊢; omega))
        · rw [if_neg hxy]
          have hm : min (min (lev u' v') (lev (x :: u') v')) (lev u' (y :: v')) =
              lev u' v' ∨
              min (min (lev u' v') (lev (x :: u') v')) (lev u' (y :: v')) =
                lev (x :: u') v' ∨
              min (min (lev u' v') (lev (x :: u') v')) (lev u' (y :: v')) =
                lev u' (y :: v') := by omega
          rcases hm with hm | hm | hm <;> rw [hm]
          · have h1 : Edits (lev u' v') (y :: u') (y :: v') :=
              edits_cons y (ih u' v' (by simp at h ⊢; omega))
            have h2 : Edits (lev u' v' + 1) (x :: u') (y :: v') :=
              Edits.step (Or.inr (Or.inr ⟨[], u', x, y, rfl, rfl⟩)) h1
            simpa [Nat.add_comm] using h2
          · have h1 : Edits (lev (x :: u') v') (x :: u') v' :=
              ih (x :: u') v' (by simp at h ⊢; omega)
            have h2 : Edits 1 v' (y :: v') :=
              edits_single (Or.inr (Or.inl ⟨[], v', y, rfl, rfl⟩))
            have h3 := edits_trans h1 h2
            simpa [Nat.add_comm] using h3
          · have h1 : Edits (lev u' (y :: v')) u' (y :: v') :=
              ih u' (y :: v') (by simp at h ⊢; omega)
            have h2 : Edits (lev u' (y :: v') + 1) (x :: u') (y :: v') :=
              Edits.step (Or.inl ⟨[], u', x, rfl, rfl⟩) h1
            simpa [Nat.add_comm] using h2

theorem lev_comm_aux : ∀ (N : Nat) (u v : List Char),
    u.length + v.length ≤ N → lev u v = lev v u := by
  intro N
  induction N with
  | zero =>
    intro u v h
    have hu : u = [] := List.eq_nil_of_length_eq_zero (by omega)
    have hv : v = [] := List.eq_nil_of_length_eq_zero (by omega)
    subst hu; subst hv; rfl
  | succ N ih =>
    intro u v h
    cases u with
    | nil => rw [lev_nil, lev_nil_right]
    | cons x u' =>
      cases v with
      | nil => rw [lev_nil, lev_nil_right]
      | cons y v' =>
        rw [lev_cons_cons, lev_cons_cons]
        by_cases hxy : x = y
        · rw [if_pos hxy, if_pos hxy.symm]
          exact ih u' v' (by simp at h ⊢; omega)
        · rw [if_neg hxy, if_neg (fun hyx => hxy hyx.symm)]
          have e1 := ih u' v' (by simp at h ⊢; omega)
          have e2 := ih (x :: u') v' (by simp at h ⊢; omega)
          have e3 := ih u' (y :: v') (by simp at h ⊢; omega)
          omega

theorem lev_comm (u v : List Char) : lev u v = lev v u :=
  lev_comm_aux (u.length + v.length) u v le_rfl

theorem take_succ_reverse (l : List Char) (i : Nat) (hi : i < l.length)
    (d : Char) :
    (l.take (i + 1)).reverse = l.getD i d :: (l.take i).reverse := by
  rw [List.take_succ, List.getElem?_eq_getElem hi]
  rw [show (some l[i]).toList = [l[i]] from rfl]
  rw [List.reverse_append]
  rw [show l.getD i d = l[i] from by
    rw [List.getD_eq_getElem?_getD, List.getElem?_eq_getElem hi]; rfl]
  rfl

theorem levMat_eq_lev (a b : List Char) : ∀ i, i ≤ a.length →
    ∀ j, j ≤ b.length →
      levMatFun a b i j = lev ((a.take i).reverse) ((b.take j).reverse) := by
  intro i
  induction i with
  | zero =>
    intro _ j hj
    rw [show levMatFun a b 0 j = j from rfl, List.take_zero, List.reverse_nil,
      lev_nil]
    simp [List.length_take]
    omega
  | succ i ihi =>
    intro hi j
    have hia : i < a.length := by omega
    have hsucc := take_succ_reverse a i hia ' '
    induction j with
    | zero =>
      rw [show levMatFun a b (i + 1) 0 =
        levMatRow a b (levMatFun a b i) i 0 from rfl]
      rw [show levMatRow a b (levMatFun a b i) i 0 = i + 1 from rfl]
      rw [List.take_zero, List.reverse_nil, lev_nil_right]
      simp [List.length_take]
      omega
    | succ j ihj =>
      intro hj
      have hj' : j ≤ b.length := by omega
      have hjb : j < b.length := by omega
      have hbsucc := take_succ_reverse b j hjb ' '
      have e1 := ihi (by omega) j hj'
      have e2 := ihi (by omega) (j + 1) hj
      have e3 := ihj hj'
      rw [hsucc] at e3
      rw [hbsucc] at e2
      rw [show levMatFun a b (i + 1) (j + 1) =
        (if a.getD i ' ' = b.getD j ' ' then levMatFun a b i j
        else min (min (levMatFun a b i j + 1)
            (levMatRow a b (levMatFun a b i) i j + 1))
          (levMatFun a b i (j + 1) + 1)) from rfl]
      rw [hsucc, hbsucc, lev_cons_cons]
      by_cases hc : a.getD i ' ' = b.getD j ' '
      · rw [if_pos hc, if_pos hc]
        exact e1
      · rw [if_neg hc, if_neg hc]
        rw [show levMatRow a b (levMatFun a b i) i j =
          levMatFun a b (i + 1) j from rfl]
        rw [e1, e2, e3]
        omega

theorem levenshteinDistance_eq_lev (a b : List Char) :
    levenshteinDistance a b = lev a.reverse b.reverse := by
  unfold levenshteinDistance
  rw [levMat_eq_lev a b a.length le_rfl b.length le_rfl, List.take_length,
    List.take_length]

theorem editStep_reverse {u v : List Char} (h : EditStep u v) :
    EditStep u.reverse v.reverse := by
  rcases h with ⟨p, s, x, hu, hv⟩ | ⟨p, s, x, hu, hv⟩ | ⟨p, s, x, y, hu, hv⟩
  · refine Or.inl ⟨s.reverse, p.reverse, x, ?_, ?_⟩
    · rw [hu]; simp
    · rw [hv]; simp
  · refine Or.inr (Or.inl ⟨s.reverse, p.reverse, x, ?_, ?_⟩)
    · rw [hu]; simp
    · rw [hv]; simp
  · refine Or.inr (Or.inr ⟨s.reverse, p.reverse, x, y, ?_, ?_⟩)
    · rw [hu]; simp
    · rw [hv]; simp

theorem edits_reverse : ∀ {n : Nat} {u v : List Char},
    Edits n u v → Edits n u.reverse v.reverse := by
  intro n u v h
  induction h with
  | refl u => exact Edits.refl u.reverse
  | step hs _ ih => exact Edits.step (editStep_reverse hs) ih

/-- C8: `TrieService.levenshteinDistance(a, b)` is exactly the minimum
number of single-character insertions, deletions and substitutions (each of
unit cost) transforming `a` into `b`: an edit script of that exact length
exists, no shorter script exists, the distance is `0` iff the strings are
equal, and the distance is symmetric. -/
theorem C8_levenshtein_minimality (a b : List Char) :
    Edits (levenshteinDistance a b) a b ∧
    (∀ n, Edits n a b → levenshteinDistance a b ≤ n) ∧
    (levenshteinDistance a b = 0 ↔ a = b) ∧
    levenshteinDistance a b = levenshteinDistance b a := by
  have hab := levenshteinDistance_eq_lev a b
  refine ⟨?_, ?_, ?_, ?_⟩
  · have h1 := edits_of_lev (a.reverse.length + b.reverse.length)
      a.reverse b.reverse le_rfl
    have h2 := edits_reverse h1
    rw [List.reverse_reverse, List.reverse_reverse] at h2
    rw [hab]
    exact h2
  · intro n hn
    have h1 := lev_le_of_edits (edits_reverse hn)
    rw [hab]
    exact h1
  · rw [hab]
    constructor
    · intro h
      exact List.reverse_inj.mp (lev_eq_zero _ _ h)
    · intro h
      subst h
      exact lev_self _
  · rw [hab, levenshteinDistance_eq_lev b a]
    exact lev_comm _ _

/-- C8 witness: applying the minimality bound to the one-step script
deleting 'a' from "ab" shows the computed distance to "b" is at most 1. -/
theorem C8_witness :
    levenshteinDistance "ab".toList "b".toList ≤ 1 :=
  (C8_levenshtein_minimality "ab".toList "b".toList).2.1 1
    (Edits.step (Or.inl ⟨[], ['b'], 'a', rfl, rfl⟩) (Edits.refl ['b']))

/-- C4 counterexample: for the query "cat", the exact-match entry with no
bonuses scores 1000, while an entry whose word does not match at all but
whose ten definitions each contain "cat" also reaches 1000 via the additive
definition bonus — so an exact word match does not always score strictly
higher than a definition-substring-only match. -/
theorem C4_counterexample :
    toLowerStr entryCat.word = toLowerStr "cat".toList ∧
    toLowerStr entryDogTenDefs.word ≠ toLowerStr "cat".toList ∧
    ¬ (toLowerStr "cat".toList <+: toLowerStr entryDogTenDefs.word) ∧
    ¬ (toLowerStr "cat".toList <:+: toLowerStr entryDogTenDefs.word) ∧
    (∀ m ∈ entryDogTenDefs.meanings, ∀ d ∈ m.definitions,
      toLowerStr "cat".toList <:+: toLowerStr d) ∧
    ¬ (calculateRelevanceScore entryDogTenDefs "cat".toList <
        calculateRelevanceScore entryCat "cat".toList) := by
  decide

/-- C4 amended: the score decomposes into exactly one word-level tier plus
the additive bonuses (an exact match contributes the 1000 tier only, and an
entry with no word-level match contributes no tier at all), and an
exact-match entry scores strictly higher than a no-word-match entry
provided the latter's additive definition/example/translation bonus stays
below the exact tier (1000 for `calculateRelevanceScore`, 100 for
`calculateMatchScore`); the unconditional comparison fails (see the
counterexample). -/
theorem C4_amended_monotonicity :
    (∀ e q, toLowerStr e.word = toLowerStr q →
      calculateRelevanceScore e q = 1000 + bonusScoreR e (toLowerStr q)) ∧
    (∀ e q, toLowerStr e.word ≠ toLowerStr q →
      ¬ (toLowerStr q <+: toLowerStr e.word) →
      ¬ (toLowerStr q <:+: toLowerStr e.word) →
      calculateRelevanceScore e q = bonusScoreR e (toLowerStr q)) ∧
    (∀ q e1 e2, toLowerStr e1.word = toLowerStr q →
      toLowerStr e2.word ≠ toLowerStr q →
      ¬ (toLowerStr q <+: toLowerStr e2.word) →
      ¬ (toLowerStr q <:+: toLowerStr e2.word) →
      bonusScoreR e2 (toLowerStr q) < 1000 →
      calculateRelevanceScore e2 q < calculateRelevanceScore e1 q) ∧
    (∀ e q, normalizeText e.word = normalizeText q →
      calculateMatchScore e q = 100 + bonusScoreM e (normalizeText q)) ∧
    (∀ q e1 e2, normalizeText e1.word = normalizeText q →
      normalizeText e2.word ≠ normalizeText q →
      ¬ (normalizeText q <+: normalizeText e2.word) →
      ¬ (normalizeText q <:+: normalizeText e2.word) →
      bonusScoreM e2 (normalizeText q) < 100 →
      calculateMatchScore e2 q < calculateMatchScore e1 q) := by
  have hR1 : ∀ e q, toLowerStr e.word = toLowerStr q →
      calculateRelevanceScore e q = 1000 + bonusScoreR e (toLowerStr q) := by
    intro e q h
    unfold calculateRelevanceScore wordScoreR
    rw [if_pos h]
  have hR0 : ∀ e q, toLowerStr e.word ≠ toLowerStr q →
      ¬ (toLowerStr q <+: toLowerStr e.word) →
      ¬ (toLowerStr q <:+: toLowerStr e.word) →
      calculateRelevanceScore e q = bonusScoreR e (toLowerStr q) := by
    intro e q h1 h2 h3
    unfold calculateRelevanceScore wordScoreR
    rw [if_neg h1, if_neg h2, if_neg h3]
    omega
  have hM1 : ∀ e q, normalizeText e.word = normalizeText q →
      calculateMatchScore e q = 100 + bonusScoreM e (normalizeText q) := by
    intro e q h
    unfold calculateMatchScore wordScoreM
    rw [if_pos h]
  have hM0 : ∀ e q, normalizeText e.word ≠ normalizeText q →
      ¬ (normalizeText q <+: normalizeText e.word) →
      ¬ (normalizeText q <:+: normalizeText e.word) →
      calculateMatchScore e q = bonusScoreM e (normalizeText q) := by
    intro e q h1 h2 h3
    unfold calculateMatchScore wordScoreM
    rw [if_neg h1, if_neg h2, if_neg h3]
    omega
  refine ⟨hR1, hR0, ?_, hM1, ?_⟩
  · intro q e1 e2 h1 h2 h3 h4 h5
    rw [hR1 e1 q h1, hR0 e2 q h2 h3 h4]
    omega
  · intro q e1 e2 h1 h2 h3 h4 h5
    rw [hM1 e1 q h1, hM0 e2 q h2 h3 h4]
    omega

/-- C4 amended witness: the strict comparison at the concrete query "cat"
between the exact-match entry and a one-definition non-matching entry. -/
theorem C4_witness :
    calculateRelevanceScore entryDogOneDef "cat".toList <
      calculateRelevanceScore entryCat "cat".toList :=
  C4_amended_monotonicity.2.2.1 "cat".toList entryCat entryDogOneDef
    (by decide) (by decide) (by decide) (by decide) (by decide)

theorem insertDesc_perm {α : Type} (score : α → Nat) (x : α) :
    ∀ l : List α, (insertDesc score x l).Perm (x :: l) := by
  intro l
  induction l with
  | nil => exact List.Perm.refl _
  | cons y ys ih =>
    by_cases h : score y < score x
    · rw [show insertDesc score x (y :: ys) = x :: y :: ys from by
        simp [insertDesc, h]]
    · rw [show insertDesc score x (y :: ys) = y :: insertDesc score x ys from by
        simp [insertDesc, h]]
      exact List.Perm.trans (List.Perm.cons y ih) (List.Perm.swap x y ys)

theorem sortDescBy_perm {α : Type} (score : α → Nat) :
    ∀ l : List α, (sortDescBy score l).Perm l := by
  intro l
  induction l with
  | nil => exact List.Perm.refl _
  | cons x xs ih =>
    exact List.Perm.trans (insertDesc_perm score x (sortDescBy score xs))
      (List.Perm.cons x ih)

theorem mem_sortDescBy {α : Type} (score : α → Nat) (l : List α) (p : α) :
    p ∈ sortDescBy score l ↔ p ∈ l :=
  (sortDescBy_perm score l).mem_iff

theorem hasExact_iff_findExact (lq : List Char) (l : List DictionaryEntry) :
    hasExact lq l = true ↔ (findExact lq l).isSome = true := by
  unfold hasExact findExact
  rw [List.any_eq_true, List.find?_isSome]

theorem find?_decide_prop {al : Type} (P : al → Prop) [DecidablePred P] :
    ∀ (l : List al) (a : al),
      l.find? (fun x => decide (P x)) = some a → P a ∧ a ∈ l := by
  intro l
  induction l with
  | nil => intro a h; simp [List.find?] at h
  | cons d t ih =>
    intro a h
    by_cases hd : P d
    · have hh : (d :: t).find? (fun x => decide (P x)) = some d := by
        simp [List.find?, hd]
      rw [hh] at h
      rw [← Option.some_inj.mp h]
      exact ⟨hd, by simp⟩
    · have hh : (d :: t).find? (fun x => decide (P x)) =
          t.find? (fun x => decide (P x)) := by
        simp [List.find?, hd]
      rw [hh] at h
      obtain ⟨hp, hm⟩ := ih a h
      exact ⟨hp, by simp [hm]⟩

theorem findExact_word (lq : List Char) (l : List DictionaryEntry)
    (e : DictionaryEntry) (h : findExact lq l = some e) :
    toLowerStr e.word = lq := by
  unfold findExact at h
  exact (find?_decide_prop (fun x => toLowerStr x.word = lq) l e h).1

theorem findExact_mem (lq : List Char) (l : List DictionaryEntry)
    (e : DictionaryEntry) (h : findExact lq l = some e) : e ∈ l := by
  unfold findExact at h
  exact (find?_decide_prop (fun x => toLowerStr x.word = lq) l e h).2

theorem mem_optTag (tag : List Char) (o : Option DictionaryEntry)
    (p : List Char × DictionaryEntry)
    (hp : p ∈ (o.map fun e => (tag, e)).toList) :
    ∃ e, o = some e ∧ p = (tag, e) := by
  cases o with
  | none => simp at hp
  | some e =>
    simp at hp
    exact ⟨e, rfl, hp⟩

theorem exactMatches_word (gpt vt yh cb : List DictionaryEntry)
    (lq : List Char) (p : List Char × DictionaryEntry)
    (hp : p ∈ exactMatches gpt vt yh cb lq) : toLowerStr p.2.word = lq := by
  unfold exactMatches at hp
  rcases List.mem_append.mp hp with h123 | h4
  · rcases List.mem_append.mp h123 with h12 | h3
    · rcases List.mem_append.mp h12 with h1 | h2
      · obtain ⟨e, he, rfl⟩ := mem_optTag _ _ _ h1
        exact findExact_word _ _ _ he
      · obtain ⟨e, he, rfl⟩ := mem_optTag _ _ _ h2
        exact findExact_word _ _ _ he
    · obtain ⟨e, he, rfl⟩ := mem_optTag _ _ _ h3
      exact findExact_word _ _ _ he
  · obtain ⟨e, he, rfl⟩ := mem_optTag _ _ _ h4
    exact findExact_word _ _ _ he

theorem optTag_length (lq : List Char) (l : List DictionaryEntry)
    (tag : List Char) :
    (((findExact lq l).map fun e => (tag, e)).toList).length =
      (if hasExact lq l then 1 else 0) := by
  cases hf : findExact lq l with
  | none =>
    have hiso := hasExact_iff_findExact lq l
    rw [hf] at hiso
    simp only [Option.isSome_none, Bool.false_eq_true, iff_false,
      Bool.not_eq_true] at hiso
    simp [hiso]
  | some e =>
    have hiso := hasExact_iff_findExact lq l
    rw [hf] at hiso
    simp only [Option.isSome_some, iff_true] at hiso
    simp [hiso]

theorem exactMatches_length (gpt vt yh cb : List DictionaryEntry)
    (lq : List Char) :
    (exactMatches gpt vt yh cb lq).length = numExactSources gpt vt yh cb lq := by
  unfold exactMatches numExactSources
  rw [List.length_append, List.length_append, List.length_append]
  rw [optTag_length, optTag_length, optTag_length, optTag_length]

theorem optTag_fst_sublist (lq : List Char) (l : List DictionaryEntry)
    (tag : List Char) :
    ((((findExact lq l).map fun e => (tag, e)).toList).map Prod.fst).Sublist
      [tag] := by
  cases hf : findExact lq l with
  | none => simp
  | some e => simp

theorem exactMatches_fst_nodup (gpt vt yh cb : List DictionaryEntry)
    (lq : List Char) :
    ((exactMatches gpt vt yh cb lq).map Prod.fst).Nodup := by
  have hsub : ((exactMatches gpt vt yh cb lq).map Prod.fst).Sublist
      ["GPT".toList, "Voicetube".toList, "Yahoo".toList, "Cambridge".toList] := by
    unfold exactMatches
    rw [List.map_append, List.map_append, List.map_append]
    have h1 := optTag_fst_sublist lq gpt "GPT".toList
    have h2 := optTag_fst_sublist lq vt "Voicetube".toList
    have h3 := optTag_fst_sublist lq yh "Yahoo".toList
    have h4 := optTag_fst_sublist lq cb "Cambridge".toList
    exact ((h1.append h2).append h3).append h4
  exact List.Nodup.sublist hsub (by decide)

theorem exactMatches_sources (gpt vt yh cb : List DictionaryEntry)
    (lq : List Char) (p : List Char × DictionaryEntry)
    (hp : p ∈ exactMatches gpt vt yh cb lq) :
    (p.1 = "GPT".toList ∧ p.2 ∈ gpt) ∨ (p.1 = "Voicetube".toList ∧ p.2 ∈ vt) ∨
    (p.1 = "Yahoo".toList ∧ p.2 ∈ yh) ∨ (p.1 = "Cambridge".toList ∧ p.2 ∈ cb) := by
  unfold exactMatches at hp
  rcases List.mem_append.mp hp with h123 | h4
  · rcases List.mem_append.mp h123 with h12 | h3
    · rcases List.mem_append.mp h12 with h1 | h2
      · obtain ⟨e, he, rfl⟩ := mem_optTag _ _ _ h1
        exact Or.inl ⟨rfl, findExact_mem _ _ _ he⟩
      · obtain ⟨e, he, rfl⟩ := mem_optTag _ _ _ h2
        exact Or.inr (Or.inl ⟨rfl, findExact_mem _ _ _ he⟩)
    · obtain ⟨e, he, rfl⟩ := mem_optTag _ _ _ h3
      exact Or.inr (Or.inr (Or.inl ⟨rfl, findExact_mem _ _ _ he⟩))
  · obtain ⟨e, he, rfl⟩ := mem_optTag _ _ _ h4
    exact Or.inr (Or.inr (Or.inr ⟨rfl, findExact_mem _ _ _ he⟩))

theorem shownKeys_of_hasExact_gpt (gpt vt yh cb : List DictionaryEntry)
    (lq : List Char) (hg : hasExact lq gpt = true) :
    ("GPT".toList, lq) ∈ shownKeys (exactMatches gpt vt yh cb lq) := by
  obtain ⟨e, he⟩ := Option.isSome_iff_exists.mp ((hasExact_iff_findExact lq gpt).mp hg)
  have hw := findExact_word _ _ _ he
  refine List.mem_map.mpr ⟨("GPT".toList, e), ?_, by rw [show ("GPT".toList, e).2 = e from rfl, hw]⟩
  unfold exactMatches
  simp [he]

theorem shownKeys_of_hasExact_vt (gpt vt yh cb : List DictionaryEntry)
    (lq : List Char) (hg : hasExact lq vt = true) :
    ("Voicetube".toList, lq) ∈ shownKeys (exactMatches gpt vt yh cb lq) := by
  obtain ⟨e, he⟩ := Option.isSome_iff_exists.mp ((hasExact_iff_findExact lq vt).mp hg)
  have hw := findExact_word _ _ _ he
  refine List.mem_map.mpr ⟨("Voicetube".toList, e), ?_, by rw [show ("Voicetube".toList, e).2 = e from rfl, hw]⟩
  unfold exactMatches
  simp [he]

theorem shownKeys_of_hasExact_yh (gpt vt yh cb : List DictionaryEntry)
    (lq : List Char) (hg : hasExact lq yh = true) :
    ("Yahoo".toList, lq) ∈ shownKeys (exactMatches gpt vt yh cb lq) := by
  obtain ⟨e, he⟩ := Option.isSome_iff_exists.mp ((hasExact_iff_findExact lq yh).mp hg)
  have hw := findExact_word _ _ _ he
  refine List.mem_map.mpr ⟨("Yahoo".toList, e), ?_, by rw [show ("Yahoo".toList, e).2 = e from rfl, hw]⟩
  unfold exactMatches
  simp [he]

theorem shownKeys_of_hasExact_cb (gpt vt yh cb : List DictionaryEntry)
    (lq : List Char) (hg : hasExact lq cb = true) :
    ("Cambridge".toList, lq) ∈ shownKeys (exactMatches gpt vt yh cb lq) := by
  obtain ⟨e, he⟩ := Option.isSome_iff_exists.mp ((hasExact_iff_findExact lq cb).mp hg)
  have hw := findExact_word _ _ _ he
  refine List.mem_map.mpr ⟨("Cambridge".toList, e), ?_, by rw [show ("Cambridge".toList, e).2 = e from rfl, hw]⟩
  unfold exactMatches
  simp [he]

theorem mem_tagAll (src : List Char) (l : List DictionaryEntry)
    (p : List Char × DictionaryEntry) (hp : p ∈ tagAll src l) :
    p.1 = src ∧ p.2 ∈ l := by
  unfold tagAll at hp
  obtain ⟨e, he, rfl⟩ := List.mem_map.mp hp
  exact ⟨rfl, he⟩

theorem hasExact_of_mem (lq : List Char) (l : List DictionaryEntry)
    (e : DictionaryEntry) (he : e ∈ l) (hw : toLowerStr e.word = lq) :
    hasExact lq l = true := by
  unfold hasExact
  exact List.any_eq_true.mpr ⟨e, he, decide_eq_true hw⟩

theorem sorted_nonExact_word (gpt vt yh cb : List DictionaryEntry)
    (text : List Char) (p : List Char × DictionaryEntry)
    (hp : p ∈ sortDescBy (fun p => calculateRelevanceScore p.2 text)
      ((allTagged gpt vt yh cb).filter fun p =>
        decide ((p.1, toLowerStr p.2.word) ∉
          shownKeys (exactMatches gpt vt yh cb (toLowerStr text))))) :
    toLowerStr p.2.word ≠ toLowerStr text := by
  intro hw
  have hmem := (mem_sortDescBy _ _ p).mp hp
  obtain ⟨hall, hpred⟩ := List.mem_filter.mp hmem
  have hnotin : (p.1, toLowerStr p.2.word) ∉
      shownKeys (exactMatches gpt vt yh cb (toLowerStr text)) :=
    of_decide_eq_true hpred
  unfold allTagged at hall
  rcases List.mem_append.mp hall with h123 | h4
  · rcases List.mem_append.mp h123 with h12 | h3
    · rcases List.mem_append.mp h12 with h1 | h2
      · obtain ⟨hfst, hsnd⟩ := mem_tagAll _ _ _ h1
        have hhe := hasExact_of_mem _ _ _ hsnd hw
        have := shownKeys_of_hasExact_gpt gpt vt yh cb (toLowerStr text) hhe
        refine hnotin ?_
        rw [hfst, hw]
        exact this
      · obtain ⟨hfst, hsnd⟩ := mem_tagAll _ _ _ h2
        have hhe := hasExact_of_mem _ _ _ hsnd hw
        have := shownKeys_of_hasExact_vt gpt vt yh cb (toLowerStr text) hhe
        refine hnotin ?_
        rw [hfst, hw]
        exact this
    · obtain ⟨hfst, hsnd⟩ := mem_tagAll _ _ _ h3
      have hhe := hasExact_of_mem _ _ _ hsnd hw
      have := shownKeys_of_hasExact_yh gpt vt yh cb (toLowerStr text) hhe
      refine hnotin ?_
      rw [hfst, hw]
      exact this
  · obtain ⟨hfst, hsnd⟩ := mem_tagAll _ _ _ h4
    have hhe := hasExact_of_mem _ _ _ hsnd hw
    have := shownKeys_of_hasExact_cb gpt vt yh cb (toLowerStr text) hhe
    refine hnotin ?_
    rw [hfst, hw]
    exact this

theorem countP_key_one {al be ga : Type} [DecidableEq ga] (f : al → be)
    (g : al → ga) (hfg : ∀ x y, g x = g y → f x = f y) :
    ∀ (l : List al), (l.map f).Nodup → ∀ p ∈ l,
      l.countP (fun x => decide (g x = g p)) = 1 := by
  intro l
  induction l with
  | nil => intro _ p hp; simp at hp
  | cons h t ih =>
    intro hnd p hp
    rw [List.map_cons] at hnd
    obtain ⟨hnotin, hnd'⟩ := List.nodup_cons.mp hnd
    rw [List.countP_cons]
    rcases List.mem_cons.mp hp with rfl | hpt
    · have htail : t.countP (fun x => decide (g x = g p)) = 0 := by
        rw [List.countP_eq_zero]
        intro a ha hga
        exact hnotin ((hfg a p (of_decide_eq_true hga)) ▸ List.mem_map_of_mem f ha)
      rw [htail]
      simp
    · have hgh : ¬ (g h = g p) := by
        intro hg
        exact hnotin ((hfg h p hg) ▸ List.mem_map_of_mem f hpt)
      rw [ih hnd' p hpt]
      simp [hgh]

/-- C3: orchestrator dedup and ordering — when the lowercased query matches
exactly in exactly two sources, the merged list of `handleSearch` contains
exactly two exact-match entries, each tagged with a distinct source id and
drawn from that source's result list; the `(source, lowercased word)` key of
each promoted exact match occurs exactly once in the whole merged list (no
duplicate non-exact entry survives the filter); and the merged list is
exactly the exact matches followed by the relevance-sorted, exact-free
remainder. -/
theorem C3_orchestrator_dedup (gpt vt yh cb : List DictionaryEntry)
    (text : List Char)
    (htwo : numExactSources gpt vt yh cb (toLowerStr text) = 2) :
    (exactIn text (handleSearchMerge gpt vt yh cb text)).length = 2 ∧
    ((exactIn text (handleSearchMerge gpt vt yh cb text)).map Prod.fst).Nodup ∧
    (∀ p ∈ exactIn text (handleSearchMerge gpt vt yh cb text),
      (p.1 = "GPT".toList ∧ p.2 ∈ gpt) ∨ (p.1 = "Voicetube".toList ∧ p.2 ∈ vt) ∨
      (p.1 = "Yahoo".toList ∧ p.2 ∈ yh) ∨ (p.1 = "Cambridge".toList ∧ p.2 ∈ cb)) ∧
    (∀ p ∈ exactIn text (handleSearchMerge gpt vt yh cb text),
      (handleSearchMerge gpt vt yh cb text).countP
        (fun x => decide ((x.1, toLowerStr x.2.word) =
          (p.1, toLowerStr p.2.word))) = 1) ∧
    handleSearchMerge gpt vt yh cb text =
      exactIn text (handleSearchMerge gpt vt yh cb text) ++
        nonExactIn text (handleSearchMerge gpt vt yh cb text) := by
  have hM : handleSearchMerge gpt vt yh cb text =
      exactMatches gpt vt yh cb (toLowerStr text) ++
        sortDescBy (fun p => calculateRelevanceScore p.2 text)
          ((allTagged gpt vt yh cb).filter fun p =>
            decide ((p.1, toLowerStr p.2.word) ∉
              shownKeys (exactMatches gpt vt yh cb (toLowerStr text)))) := rfl
  have hEXword := exactMatches_word gpt vt yh cb (toLowerStr text)
  have hRword := sorted_nonExact_word gpt vt yh cb text
  have hfilt : exactIn text (handleSearchMerge gpt vt yh cb text) =
      exactMatches gpt vt yh cb (toLowerStr text) := by
    rw [hM]
    unfold exactIn
    rw [List.filter_append]
    have h1 : (exactMatches gpt vt yh cb (toLowerStr text)).filter
        (fun p => decide (toLowerStr p.2.word = toLowerStr text)) =
        exactMatches gpt vt yh cb (toLowerStr text) :=
      List.filter_eq_self.mpr fun p hp => decide_eq_true (hEXword p hp)
    have h2 : (sortDescBy (fun p => calculateRelevanceScore p.2 text)
        ((allTagged gpt vt yh cb).filter fun p =>
          decide ((p.1, toLowerStr p.2.word) ∉
            shownKeys (exactMatches gpt vt yh cb (toLowerStr text))))).filter
        (fun p => decide (toLowerStr p.2.word = toLowerStr text)) = [] := by
      rw [List.filter_eq_nil_iff]
      intro p hp
      simp only [decide_eq_true_eq]
      exact hRword p hp
    rw [h1, h2, List.append_nil]
  have hnonex : nonExactIn text (handleSearchMerge gpt vt yh cb text) =
      sortDescBy (fun p => calculateRelevanceScore p.2 text)
        ((allTagged gpt vt yh cb).filter fun p =>
          decide ((p.1, toLowerStr p.2.word) ∉
            shownKeys (exactMatches gpt vt yh cb (toLowerStr text)))) := by
    rw [hM]
    unfold nonExactIn
    rw [List.filter_append]
    have h1 : (exactMatches gpt vt yh cb (toLowerStr text)).filter
        (fun p => !(decide (toLowerStr p.2.word = toLowerStr text))) = [] := by
      rw [List.filter_eq_nil_iff]
      intro p hp
      simp only [Bool.not_eq_true', decide_eq_false_iff_not, not_not]
      exact hEXword p hp
    have h2 : (sortDescBy (fun p => calculateRelevanceScore p.2 text)
        ((allTagged gpt vt yh cb).filter fun p =>
          decide ((p.1, toLowerStr p.2.word) ∉
            shownKeys (exactMatches gpt vt yh cb (toLowerStr text))))).filter
        (fun p => !(decide (toLowerStr p.2.word = toLowerStr text))) =
        sortDescBy (fun p => calculateRelevanceScore p.2 text)
          ((allTagged gpt vt yh cb).filter fun p =>
            decide ((p.1, toLowerStr p.2.word) ∉
              shownKeys (exactMatches gpt vt yh cb (toLowerStr text)))) :=
      List.filter_eq_self.mpr fun p hp => by
        simp only [Bool.not_eq_true', decide_eq_false_iff_not]
        exact hRword p hp
    rw [h1, h2, List.nil_append]
  refine ⟨?_, ?_, ?_, ?_, ?_⟩
  · rw [hfilt, exactMatches_length]
    exact htwo
  · rw [hfilt]
    exact exactMatches_fst_nodup gpt vt yh cb (toLowerStr text)
  · rw [hfilt]
    exact exactMatches_sources gpt vt yh cb (toLowerStr text)
  · intro p hp
    rw [hfilt] at hp
    rw [hM, List.countP_append]
    have hc1 : (exactMatches gpt vt yh cb (toLowerStr text)).countP
        (fun x => decide ((x.1, toLowerStr x.2.word) =
          (p.1, toLowerStr p.2.word))) = 1 :=
      countP_key_one Prod.fst (fun x => (x.1, toLowerStr x.2.word))
        (fun x y h => by simpa using congrArg Prod.fst h) _
        (exactMatches_fst_nodup gpt vt yh cb (toLowerStr text)) p hp
    have hc2 : (sortDescBy (fun p => calculateRelevanceScore p.2 text)
        ((allTagged gpt vt yh cb).filter fun p =>
          decide ((p.1, toLowerStr p.2.word) ∉
            shownKeys (exactMatches gpt vt yh cb (toLowerStr text))))).countP
        (fun x => decide ((x.1, toLowerStr x.2.word) =
          (p.1, toLowerStr p.2.word))) = 0 := by
      rw [List.countP_eq_zero]
      intro a ha hkey
      have hk : (a.1, toLowerStr a.2.word) = (p.1, toLowerStr p.2.word) :=
        of_decide_eq_true hkey
      have hw : toLowerStr a.2.word = toLowerStr p.2.word :=
        congrArg Prod.snd hk
      rw [hEXword p hp] at hw
      exact hRword a ha hw
    rw [hc1, hc2]
  · rw [hfilt, hnonex]
    exact hM

/-- C3 witness: the query "cat" matches exactly in the GPT and Voicetube
sources only; the merged list then has exactly two exact matches. -/
theorem C3_witness :
    (exactIn "cat".toList
      (handleSearchMerge [entryCat, entryDogOneDef] [entryCatVt] []
        [entryDogTenDefs] "cat".toList)).length = 2 :=
  (C3_orchestrator_dedup [entryCat, entryDogOneDef] [entryCatVt] []
    [entryDogTenDefs] "cat".toList (by decide)).1

theorem insertByAccess_perm (x : String × CacheEntryM) :
    ∀ l : List (String × CacheEntryM), (insertByAccess x l).Perm (x :: l) := by
  intro l
  induction l with
  | nil => exact List.Perm.refl _
  | cons y ys ih =>
    by_cases h : x.2.lastAccessed < y.2.lastAccessed
    · rw [show insertByAccess x (y :: ys) = x :: y :: ys from by
        simp [insertByAccess, h]]
    · rw [show insertByAccess x (y :: ys) = y :: insertByAccess x ys from by
        simp [insertByAccess, h]]
      exact List.Perm.trans (List.Perm.cons y ih) (List.Perm.swap x y ys)

theorem sortByAccess_perm :
    ∀ l : List (String × CacheEntryM), (sortByAccess l).Perm l := by
  intro l
  induction l with
  | nil => exact List.Perm.refl _
  | cons x xs ih =>
    exact List.Perm.trans (insertByAccess_perm x (sortByAccess xs))
      (List.Perm.cons x ih)

theorem aerase_sublist {be : Type} (k : String) :
    ∀ l : List (String × be), (aerase k l).Sublist l := by
  intro l
  induction l with
  | nil => simp [aerase]
  | cons p rest ih =>
    obtain ⟨k', v⟩ := p
    by_cases h : k' = k
    · rw [show aerase k ((k', v) :: rest) = rest from by simp [aerase, h]]
      exact List.sublist_cons_self _ _
    · rw [show aerase k ((k', v) :: rest) = (k', v) :: aerase k rest from by
        simp [aerase, h]]
      exact List.Sublist.cons₂ _ ih

theorem mem_of_alookup_isSome {be : Type} (k : String) :
    ∀ l : List (String × be), (alookup k l).isSome = true → ∃ v, (k, v) ∈ l := by
  intro l
  induction l with
  | nil => intro h; simp [alookup] at h
  | cons p rest ih =>
    intro h
    obtain ⟨k', v⟩ := p
    by_cases hk : k' = k
    · subst hk
      exact ⟨v, by simp⟩
    · rw [show alookup k ((k', v) :: rest) = alookup k rest from by
        simp [alookup, hk]] at h
      obtain ⟨v', hv⟩ := ih h
      exact ⟨v', by simp [hv]⟩

theorem alookup_isSome_of_mem {be : Type} (k : String) (v : be) :
    ∀ l : List (String × be), (k, v) ∈ l → (alookup k l).isSome = true := by
  intro l
  induction l with
  | nil => intro h; simp at h
  | cons p rest ih =>
    intro h
    obtain ⟨k', v'⟩ := p
    by_cases hk : k' = k
    · simp [alookup, hk]
    · rw [show alookup k ((k', v') :: rest) = alookup k rest from by
        simp [alookup, hk]]
      rcases List.mem_cons.mp h with heq | hmem
      · exact absurd (congrArg Prod.fst heq).symm hk
      · exact ih hmem

theorem sumSizes_aerase (k : String) (e : CacheEntryM) :
    ∀ l : List (String × CacheEntryM), alookup k l = some e →
      sumSizes (aerase k l) = sumSizes l - e.size := by
  intro l
  induction l with
  | nil => intro h; simp [alookup] at h
  | cons p rest ih =>
    intro h
    obtain ⟨k', v⟩ := p
    by_cases hk : k' = k
    · rw [show alookup k ((k', v) :: rest) = some v from by simp [alookup, hk]] at h
      rw [show aerase k ((k', v) :: rest) = rest from by simp [aerase, hk]]
      rw [← Option.some_inj.mp h]
      show sumSizes rest = sumSizes ((k', v) :: rest) - v.size
      rw [show sumSizes ((k', v) :: rest) = v.size + sumSizes rest from by
        simp [sumSizes]]
      omega
    · rw [show alookup k ((k', v) :: rest) = alookup k rest from by
        simp [alookup, hk]] at h
      rw [show aerase k ((k', v) :: rest) = (k', v) :: aerase k rest from by
        simp [aerase, hk]]
      rw [show sumSizes ((k', v) :: aerase k rest) =
        v.size + sumSizes (aerase k rest) from by simp [sumSizes]]
      rw [show sumSizes ((k', v) :: rest) = v.size + sumSizes rest from by
        simp [sumSizes]]
      rw [ih h]
      omega

theorem alookup_none_of_not_mem_fst {be : Type} (k : String) :
    ∀ l : List (String × be), k ∉ l.map Prod.fst → alookup k l = none := by
  intro l
  induction l with
  | nil => intro _; rfl
  | cons p rest ih =>
    intro h
    obtain ⟨k', v⟩ := p
    rw [List.map_cons] at h
    have h1 : k' ≠ k := fun he => h (by simp [he])
    rw [show alookup k ((k', v) :: rest) = alookup k rest from by
      simp [alookup, h1]]
    exact ih fun hm => h (by simp [hm])

theorem alookup_aerase_self (k : String) :
    ∀ l : List (String × CacheEntryM), (l.map Prod.fst).Nodup →
      alookup k (aerase k l) = none := by
  intro l
  induction l with
  | nil => intro _; rfl
  | cons p rest ih =>
    intro hnd
    obtain ⟨k', v⟩ := p
    rw [List.map_cons] at hnd
    obtain ⟨hnotin, hnd'⟩ := List.nodup_cons.mp hnd
    by_cases hk : k' = k
    · rw [show aerase k ((k', v) :: rest) = rest from by simp [aerase, hk]]
      exact alookup_none_of_not_mem_fst k rest (hk ▸ hnotin)
    · rw [show aerase k ((k', v) :: rest) = (k', v) :: aerase k rest from by
        simp [aerase, hk]]
      rw [show alookup k ((k', v) :: aerase k rest) =
        alookup k (aerase k rest) from by simp [alookup, hk]]
      exact ih hnd'

theorem cleanupGo_le (cfg : CacheConfigM) :
    ∀ (keys : List String) (st : CacheStateM),
      st.totalSize = sumSizes st.memoryCache →
      (st.memoryCache.map Prod.fst).Nodup →
      (∀ k, (alookup k st.memoryCache).isSome = true → k ∈ keys) →
      0 ≤ cfg.maxTotalSize →
      (cleanupGo cfg keys st).totalSize ≤ cfg.maxTotalSize := by
  intro keys
  induction keys with
  | nil =>
    intro st hInv hnd hcov hmax
    rw [show cleanupGo cfg [] st = st from rfl]
    cases hmem : st.memoryCache with
    | nil =>
      rw [hmem] at hInv
      rw [show sumSizes [] = 0 from rfl] at hInv
      omega
    | cons p rest =>
      exfalso
      have hs : (alookup p.1 st.memoryCache).isSome = true := by
        rw [hmem]
        exact alookup_isSome_of_mem p.1 p.2 _ (by simp)
      exact absurd (hcov p.1 hs) (by simp)
  | cons k ks ih =>
    intro st hInv hnd hcov hmax
    rw [show cleanupGo cfg (k :: ks) st =
      (if st.totalSize > cfg.maxTotalSize then
        cleanupGo cfg ks (evictEntry cfg st k)
      else st) from rfl]
    by_cases hgt : st.totalSize > cfg.maxTotalSize
    · rw [if_pos hgt]
      cases hke : alookup k st.memoryCache with
      | none =>
        have hevict : evictEntry cfg st k = st := by
          unfold evictEntry
          rw [hke]
        rw [hevict]
        refine ih st hInv hnd (fun k' hk' => ?_) hmax
        rcases List.mem_cons.mp (hcov k' hk') with rfl | hks
        · rw [hke] at hk'
          simp at hk'
        · exact hks
      | some e =>
        have hmemE : (evictEntry cfg st k).memoryCache =
            aerase k st.memoryCache := by
          unfold evictEntry
          rw [hke]
        have htotE : (evictEntry cfg st k).totalSize =
            st.totalSize - e.size := by
          unfold evictEntry
          rw [hke]
        refine ih _ ?_ ?_ (fun k' hk' => ?_) hmax
        · rw [htotE, hmemE, hInv, sumSizes_aerase k e st.memoryCache hke]
        · rw [hmemE]
          exact List.Nodup.sublist
            (List.Sublist.map Prod.fst (aerase_sublist k st.memoryCache)) hnd
        · rw [hmemE] at hk'
          by_cases hkk : k' = k
          · subst hkk
            rw [alookup_aerase_self k' st.memoryCache hnd] at hk'
            simp at hk'
          · obtain ⟨v, hv⟩ := mem_of_alookup_isSome k' _ hk'
            have hvm : (k', v) ∈ st.memoryCache :=
              (aerase_sublist k st.memoryCache).mem hv
            have := hcov k' (alookup_isSome_of_mem k' v _ hvm)
            rcases List.mem_cons.mp this with rfl | hks
            · exact absurd rfl hkk
            · exact hks
    · rw [if_neg hgt]
      omega

theorem cleanupCache_le (cfg : CacheConfigM) (st : CacheStateM)
    (hInv : st.totalSize = sumSizes st.memoryCache)
    (hnd : (st.memoryCache.map Prod.fst).Nodup)
    (hmax : 0 ≤ cfg.maxTotalSize) :
    (cleanupCache cfg st).totalSize ≤ cfg.maxTotalSize := by
  unfold cleanupCache
  refine cleanupGo_le cfg _ st hInv hnd (fun k hk => ?_) hmax
  obtain ⟨v, hv⟩ := mem_of_alookup_isSome k _ hk
  have : (k, v) ∈ sortByAccess st.memoryCache :=
    (sortByAccess_perm st.memoryCache).mem_iff.mpr hv
  exact List.mem_map.mpr ⟨(k, v), this, rfl⟩

/-- C5 counterexample: with a 10-byte budget, storing two 8-byte values
leaves the tracked total at 16 — `set` only evicts until the PRE-EXISTING
total is within the bound (8 ≤ 10, so nothing is evicted) and then adds the
new entry's size on top, so the tracked total exceeds `maxTotalSize` after
the call even though eviction of the old entry would have made the new one
fit. -/
theorem C5_counterexample :
    (cacheSet cfgSmall List.length
        (cacheSet cfgSmall List.length emptyCache "a" "12345678".toList 0)
        "b" "12345678".toList 1).totalSize = 16 ∧
    cfgSmall.maxTotalSize = 10 ∧
    ¬ ((cacheSet cfgSmall List.length
        (cacheSet cfgSmall List.length emptyCache "a" "12345678".toList 0)
        "b" "12345678".toList 1).totalSize ≤ cfgSmall.maxTotalSize) := by
  decide

/-- C5 amended: when `set(key, value)` projects a total above
`maxTotalSize`, `cleanupCache` evicts least-recently-accessed entries only
until the pre-existing tracked total is back within `maxTotalSize`; the new
entry is then stored unconditionally, so after `set` the tracked total of
the fast tier is bounded by `maxTotalSize` plus the new entry's size (not by
`maxTotalSize` itself, which the code can exceed — see the counterexample).
Assumes the tracked total is consistent with the stored entries and keys are
unique, which hold for states built by the service. -/
theorem C5_amended_size_bound (cfg : CacheConfigM)
    (calcSize : List Char → Nat) (st : CacheStateM) (key : String)
    (data : List Char) (now : Int)
    (hInv : st.totalSize = sumSizes st.memoryCache)
    (hnd : (st.memoryCache.map Prod.fst).Nodup)
    (hmax : 0 ≤ cfg.maxTotalSize) :
    (cacheSet cfg calcSize st key data now).totalSize ≤
      cfg.maxTotalSize + calcSize data := by
  have hts : (cacheSet cfg calcSize st key data now).totalSize =
      (if st.totalSize + calcSize data > cfg.maxTotalSize then
        cleanupCache cfg st
      else st).totalSize + calcSize data := rfl
  rw [hts]
  by_cases hgt : st.totalSize + calcSize data > cfg.maxTotalSize
  · rw [if_pos hgt]
    have := cleanupCache_le cfg st hInv hnd hmax
    omega
  · rw [if_neg hgt]
    omega

/-- C5 amended witness: the bound at the concrete overflowing state — the
total after the second `set` (16) is within `maxTotalSize + size = 18`. -/
theorem C5_witness :
    (cacheSet cfgSmall List.length
        (cacheSet cfgSmall List.length emptyCache "a" "12345678".toList 0)
        "b" "12345678".toList 1).totalSize ≤
      cfgSmall.maxTotalSize + List.length "12345678".toList :=
  C5_amended_size_bound cfgSmall List.length
    (cacheSet cfgSmall List.length emptyCache "a" "12345678".toList 0)
    "b" "12345678".toList 1 (by decide) (by decide) (by decide)

/-- C6: cache expiry — an entry whose age exceeds `ttl`
(`now - timestamp > ttl`) is treated as absent by `get` in both the fast and
the persistent tier (when every tier's copy is expired, `get` returns
`null`), and a fast-tier entry aged at most `ttl` is not expired: `get`
returns its data. -/
theorem C6_cache_expiry (cfg : CacheConfigM) (st : CacheStateM)
    (storage : String → Option CacheEntryM) (key : String) (now : Int) :
    ((∀ e, alookup key st.memoryCache = some e → now - e.timestamp > cfg.ttl) →
      (∀ e, alookup key st.diskCache = some e → now - e.timestamp > cfg.ttl) →
      (∀ e, storage key = some e → now - e.timestamp > cfg.ttl) →
      cacheGetValue cfg st storage key now = none) ∧
    (∀ e, alookup key st.memoryCache = some e →
      ¬ (now - e.timestamp > cfg.ttl) →
      cacheGetValue cfg st storage key now = some e.data) := by
  constructor
  · intro hmem hdisk hstore
    have hdiskPart : cacheGetDisk cfg st storage key now = none := by
      unfold cacheGetDisk
      by_cases hfb : cfg.fallbackStorage = FallbackStorage.disk ∨
          cfg.fallbackStorage = FallbackStorage.both
      · rw [if_pos hfb]
        cases hd : alookup key st.diskCache with
        | some e =>
          rw [show (some e).orElse (fun _ => storage key) = some e from rfl]
          show (if now - e.timestamp > cfg.ttl then (none : Option (List Char))
            else some e.data) = none
          rw [if_pos (hdisk e hd)]
        | none =>
          rw [show (none : Option CacheEntryM).orElse (fun _ => storage key) =
            storage key from rfl]
          cases hs : storage key with
          | some e =>
            show (if now - e.timestamp > cfg.ttl then (none : Option (List Char))
              else some e.data) = none
            rw [if_pos (hstore e hs)]
          | none => rfl
      · rw [if_neg hfb]
    unfold cacheGetValue
    cases hm : alookup key st.memoryCache with
    | some e =>
      show (if now - e.timestamp > cfg.ttl then
        cacheGetDisk cfg st storage key now else some e.data) = none
      rw [if_pos (hmem e hm)]
      exact hdiskPart
    | none => exact hdiskPart
  · intro e hm hfresh
    unfold cacheGetValue
    rw [hm]
    show (if now - e.timestamp > cfg.ttl then
      cacheGetDisk cfg st storage key now else some e.data) = some e.data
    rw [if_neg hfresh]

/-- C6 witness: a fast-tier entry written at t=0 with ttl 1000 read at
t=2000 is absent everywhere, and read at t=500 yields its data. -/
theorem C6_witness :
    cacheGetValue ⟨1000, 10, 100, .both⟩
        ⟨[("k", ⟨"v".toList, 0, 1, 0⟩)], [], 1⟩ (fun _ => none) "k" 2000 =
      none ∧
    cacheGetValue ⟨1000, 10, 100, .both⟩
        ⟨[("k", ⟨"v".toList, 0, 1, 0⟩)], [], 1⟩ (fun _ => none) "k" 500 =
      some "v".toList := by
  constructor
  · refine (C6_cache_expiry ⟨1000, 10, 100, .both⟩
      ⟨[("k", ⟨"v".toList, 0, 1, 0⟩)], [], 1⟩ (fun _ => none) "k" 2000).1
      (fun e he => ?_) (fun e he => by simp [alookup] at he)
      (fun e he => by simp at he)
    have he2 : some (⟨"v".toList, 0, 1, 0⟩ : CacheEntryM) = some e := he
    rw [← Option.some_inj.mp he2]
    decide
  · refine (C6_cache_expiry ⟨1000, 10, 100, .both⟩
      ⟨[("k", ⟨"v".toList, 0, 1, 0⟩)], [], 1⟩ (fun _ => none) "k" 500).2
      ⟨"v".toList, 0, 1, 0⟩ (by decide) (by decide)

theorem filter_ne_of_not_mem (q : String) (h : List String) (hq : q ∉ h) :
    h.filter (fun i => decide (i ≠ q)) = h :=
  List.filter_eq_self.mpr fun a ha =>
    decide_eq_true fun he => hq (he ▸ ha)

theorem take_cons_take (q : String) (l : List String) :
    (q :: l.take 20).take 20 = (q :: l).take 20 := by
  rw [show (20 : Nat) = 19 + 1 from rfl, List.take_succ_cons,
    List.take_succ_cons, List.take_take]
  rw [show (19 ⊓ (19 + 1)) = 19 from rfl]

theorem filter_ne_length (q : String) :
    ∀ h : List String, h.Nodup → q ∈ h →
      (h.filter (fun i => decide (i ≠ q))).length + 1 = h.length := by
  intro h
  induction h with
  | nil => intro _ hq; simp at hq
  | cons a t ih =>
    intro hnd hq
    obtain ⟨hnotin, hnd'⟩ := List.nodup_cons.mp hnd
    by_cases hqa : q = a
    · subst hqa
      rw [show (q :: t).filter (fun i => decide (i ≠ q)) =
        t.filter (fun i => decide (i ≠ q)) from by simp]
      rw [filter_ne_of_not_mem q t hnotin]
      simp
    · have haq : a ≠ q := fun he => hqa he.symm
      rw [show (a :: t).filter (fun i => decide (i ≠ q)) =
        a :: t.filter (fun i => decide (i ≠ q)) from by simp [haq]]
      have hqt : q ∈ t := by
        rcases List.mem_cons.mp hq with he | ht
        · exact absurd he hqa
        · exact ht
      have := ih hnd' hqt
      simp only [List.length_cons]
      omega

theorem addToSearchHistory_fold (qs : List String) (hnd : qs.Nodup) :
    qs.foldl (fun h q => addToSearchHistory q h) [] = (qs.reverse).take 20 := by
  induction qs using List.reverseRecOn with
  | nil => rfl
  | append_singleton l q ih =>
    have hnd' : l.Nodup ∧ q ∉ l := by
      rw [List.nodup_append] at hnd
      exact ⟨hnd.1, fun hm => hnd.2.2 hm (by simp)⟩
    rw [List.foldl_append, List.foldl_cons, List.foldl_nil, ih hnd'.1]
    unfold addToSearchHistory
    have hq : q ∉ (l.reverse).take 20 := fun hm =>
      hnd'.2 (List.mem_reverse.mp (List.mem_of_mem_take hm))
    rw [filter_ne_of_not_mem q _ hq, take_cons_take]
    rw [List.reverse_append]
    rfl

/-- C7: search-history cap, order, move-to-front, no duplicates — folding
`MAX+5 = 25` distinct queries into an empty history leaves exactly
`MAX_HISTORY_ITEMS = 20` entries, the 20 most recent in most-recent-first
order; re-adding a query already present in a history within the cap moves
it to the front without changing the length; and the history stays free of
duplicates. -/
theorem C7_history_cap :
    (∀ qs : List String, qs.Nodup → qs.length = 25 →
      qs.foldl (fun h q => addToSearchHistory q h) [] = (qs.reverse).take 20 ∧
      (qs.foldl (fun h q => addToSearchHistory q h) []).length = 20) ∧
    (∀ (q : String) (h : List String), q ∈ h → h.Nodup → h.length ≤ 20 →
      addToSearchHistory q h = q :: h.filter (fun i => decide (i ≠ q)) ∧
      (addToSearchHistory q h).length = h.length) ∧
    (∀ (q : String) (h : List String), h.Nodup →
      (addToSearchHistory q h).Nodup) := by
  refine ⟨fun qs hnd hlen => ?_, fun q h hq hnd hle => ?_, fun q h hnd => ?_⟩
  · have hfold := addToSearchHistory_fold qs hnd
    refine ⟨hfold, ?_⟩
    rw [hfold, List.length_take, List.length_reverse, hlen]
    rfl
  · have hlenf := filter_ne_length q h hnd hq
    have hle2 : (q :: h.filter (fun i => decide (i ≠ q))).length ≤ 20 := by
      simp only [List.length_cons]
      omega
    unfold addToSearchHistory
    rw [List.take_of_length_le hle2]
    refine ⟨rfl, ?_⟩
    simp only [List.length_cons]
    omega
  · unfold addToSearchHistory
    refine List.Nodup.sublist (List.take_sublist _ _) ?_
    rw [List.nodup_cons]
    refine ⟨fun hm => ?_, List.Nodup.filter _ hnd⟩
    have := (List.mem_filter.mp hm).2
    simp at this

/-- C7 witness: folding 25 distinct one-letter queries leaves exactly 20
history entries. -/
theorem C7_witness :
    ((["a", "b", "c", "d", "e", "f", "g", "h", "i", "j", "k", "l", "m", "n",
      "o", "p", "q", "r", "s", "t", "u", "v", "w", "x", "y"] : List String).foldl
      (fun h q => addToSearchHistory q h) []).length = 20 :=
  (C7_history_cap.1
    ["a", "b", "c", "d", "e", "f", "g", "h", "i", "j", "k", "l", "m", "n",
      "o", "p", "q", "r", "s", "t", "u", "v", "w", "x", "y"]
    (by decide) (by decide)).2

/-- C9 counterexample: the trie-backed autocomplete variant returns, for the
query "joy", the entry for "happy" (indexed under its definition token
"joyful"), whose word does not start with the query — so the
"word starts with query" half of the contract fails for that variant. -/
theorem C9_counterexample :
    entryHappy ∈ autocompleteSuggestionsTrie [entryHappy] "gpt".toList
      "joy".toList ∧
    ¬ (normalizeText "joy".toList <+: toLowerStr entryHappy.word) ∧
    ¬ (normalizeText "joy".toList <+: normalizeText entryHappy.word) := by
  decide

/-- C9 amended: the filter-based `getAutocompleteSuggestions` of
`searchService.ts` returns at most 5 entries and every returned entry's
normalized (trimmed, lowercased) word starts with the normalized query; the
trie-backed variant still returns at most 5 entries, but they are only
guaranteed to be indexed under a key (the word or a definition token)
starting with the query — the entry's own word need not start with it (see
the counterexample). -/
theorem C9_autocomplete_amended :
    (∀ (dict : List DictionaryEntry) (q : List Char), normalizeText q ≠ [] →
      (getAutocompleteSuggestions dict q).length ≤ 5 ∧
      ∀ e ∈ getAutocompleteSuggestions dict q,
        normalizeText q <+: normalizeText e.word) ∧
    (∀ (dict : List DictionaryEntry) (did q : List Char),
      (autocompleteSuggestionsTrie dict did q).length ≤ 5) := by
  constructor
  · intro dict q hq
    unfold getAutocompleteSuggestions
    rw [if_neg hq]
    constructor
    · exact List.length_take_le ..
    · intro e he
      have hm := List.mem_of_mem_take he
      exact of_decide_eq_true (List.mem_filter.mp hm).2
  · intro dict did q
    unfold autocompleteSuggestionsTrie
    by_cases hq : normalizeText q = []
    · rw [if_pos hq]
      simp
    · rw [if_neg hq]
      exact List.length_take_le ..

/-- C9 amended witness: concrete filter-based suggestion bound for a
non-empty query. -/
theorem C9_witness :
    (getAutocompleteSuggestions [entryHappy, entryHappier]
      "hap".toList).length ≤ 5 :=
  (C9_autocomplete_amended.1 [entryHappy, entryHappier] "hap".toList
    (by decide)).1
